import Mathlib

/-!
Verification of the grid-search core of the COS30019 robot-navigation
assignment (environment.py and the seven modules under algorithms/).

Modelling conventions:
* A cell is identified by its integer coordinates, as in the Python code,
  where `Cell.__eq__` and `Cell.__hash__` compare coordinates only.
* The mutable per-cell annotations (`g`, `h`, `parent`, `blocked`) live in a
  state `PMap : Pos → CellState`; Python's in-place mutation becomes explicit
  state passing.
* Python `while` loops that are not structurally terminating take an explicit
  fuel argument and return `none` when the fuel runs out; any terminating
  Python run corresponds to every sufficiently large fuel.
* A direction token such as `"up"` or `"up_3"` is modelled as a `Tok`:
  the direction plus the optional `_k` distance suffix.
* Exceptions are modelled with `Except PyExc`.
-/

namespace RobotNav

/-- Positions: the (x, y) integer coordinates of a cell. -/
abbrev Pos : Type := Int × Int

/-- environment.py `Direction`: enumeration order UP, LEFT, DOWN, RIGHT. -/
inductive Direction : Type where
  | up
  | left
  | down
  | right
deriving DecidableEq, Repr

/-- The members of `list(Direction)` in Python enumeration order. -/
def directionList : List Direction := [Direction.up, Direction.left, Direction.down, Direction.right]

/-- Coordinate arithmetic of environment.py `Grid.get_neighbor`: the cell at the
given distance from `p` in direction `d`. -/
def stepPos (p : Pos) (d : Direction) (k : Int) : Pos :=
  match d with
  | Direction.up => (p.1, p.2 - k)
  | Direction.left => (p.1 - k, p.2)
  | Direction.down => (p.1, p.2 + k)
  | Direction.right => (p.1 + k, p.2)

/-- environment.py `Cell.__sub__`: with `dx, dy = b - a`, returns UP/DOWN when
`dx = 0` (UP iff `dy < 0`), else LEFT iff `dx < 0`, RIGHT otherwise.
`dirFromTo a b` is Python's `a - b`, the direction from `a` to `b`. -/
def dirFromTo (a b : Pos) : Direction :=
  let dx := b.1 - a.1
  let dy := b.2 - a.2
  if dx = 0 then (if dy < 0 then Direction.up else Direction.down)
  else (if dx < 0 then Direction.left else Direction.right)

/-- environment.py `Cell.manhattan_distance`. -/
def manhattan (a b : Pos) : Nat :=
  (a.1 - b.1).natAbs + (a.2 - b.2).natAbs

/-- A direction token of a returned path: `"up"` is `⟨up, none⟩`, and the
jump-capable `"up_3"` is `⟨up, some 3⟩`. -/
structure Tok : Type where
  dir : Direction
  dist : Option Nat
deriving DecidableEq, Repr

/-- The mutable annotations of one environment.py `Cell`: cost-so-far `g`,
heuristic `h`, `parent` backlink, and the `blocked` flag. -/
structure CellState : Type where
  g : Nat
  h : Nat
  parent : Option Pos
  blocked : Bool
deriving DecidableEq, Repr

/-- The mutable state of all cells of a grid, addressed by coordinates. -/
abbrev PMap : Type := Pos → CellState

/-- Assignment `cell.parent = q` for the cell at `p`. -/
def setParent (st : PMap) (p : Pos) (q : Pos) : PMap :=
  fun r => if r = p then { st r with parent := some q } else st r

/-- Assignment `cell.parent = None` for the cell at `p`. -/
def clearParent (st : PMap) (p : Pos) : PMap :=
  fun r => if r = p then { st r with parent := none } else st r

/-- Assignment `cell.h = v` for the cell at `p`. -/
def setH (st : PMap) (p : Pos) (v : Nat) : PMap :=
  fun r => if r = p then { st r with h := v } else st r

/-- Assignment `cell.g = v` for the cell at `p`. -/
def setG (st : PMap) (p : Pos) (v : Nat) : PMap :=
  fun r => if r = p then { st r with g := v } else st r

/-- environment.py `Grid.reset`, which calls `Cell.reset` (`g = h = 0`,
`parent = None`) on every cell; the `blocked` flag is not touched. -/
def resetState (st : PMap) : PMap :=
  fun r => { st r with g := 0, h := 0, parent := none }

/-- A state in which every cell carries the annotations a freshly constructed
`Grid` gives it: `g = 0`, `h = 0`, `parent = None` (`Cell.__init__`). -/
def Fresh (st : PMap) : Prop :=
  ∀ p, (st p).g = 0 ∧ (st p).h = 0 ∧ (st p).parent = none

/-- Two states with the same `blocked` flag on every cell. -/
def sameBlocked (st st' : PMap) : Prop :=
  ∀ p, (st p).blocked = (st' p).blocked

/-- The static data of environment.py `Grid`: its height and width.  The
per-cell data (including `blocked`, set once from the wall rectangles at
construction) lives in the `PMap` state. -/
structure Grid : Type where
  height : Nat
  width : Nat
deriving DecidableEq, Repr

/-- environment.py `Grid.is_valid`: `0 <= x < width and 0 <= y < height`. -/
def Grid.is_valid (g : Grid) (x y : Int) : Prop :=
  0 ≤ x ∧ x < (g.width : Int) ∧ 0 ≤ y ∧ y < (g.height : Int)

instance (g : Grid) (x y : Int) : Decidable (g.is_valid x y) := by
  unfold Grid.is_valid; infer_instance

/-- `Grid.is_valid` applied to a position. -/
def Grid.validP (g : Grid) (p : Pos) : Prop := g.is_valid p.1 p.2

instance (g : Grid) (p : Pos) : Decidable (g.validP p) := by
  unfold Grid.validP; infer_instance

/-- environment.py `Grid.get_neighbor`: the cell at `distance` from `cell` in
`direction` when the target passes `is_valid`, else `None`.  (Doc note: the
Python computes the target coordinates with the same case analysis as
`stepPos`.) -/
def Grid.get_neighbor (g : Grid) (p : Pos) (d : Direction) (distance : Int) : Option Pos :=
  let q := stepPos p d distance
  if g.validP q then some q else none

/-- The per-direction walk of environment.py `Grid.get_neighbors`: starting at
`distance`, append the neighbor while it exists; stop after one step when
`can_jump` is false.  The Python `while` loop is given fuel; the grid is
bounded, so `width + height + 1` steps are always enough (proved in the
`get_neighbors` characterization below). -/
def neighborWalk (g : Grid) (p : Pos) (d : Direction) (can_jump : Bool) :
    Nat → Int → List Pos
  | 0, _ => []
  | Nat.succ fuel, k =>
    match g.get_neighbor p d k with
    | none => []
    | some q => if can_jump then q :: neighborWalk g p d can_jump fuel (k + 1) else [q]

/-- environment.py `Grid.get_neighbors`: for each direction in the fixed order
up, left, down, right, the cells at distances 1, 2, … while valid (just the
distance-1 cell when `can_jump` is false).  Blocked status is not consulted. -/
def Grid.get_neighbors (g : Grid) (p : Pos) (can_jump : Bool) : List Pos :=
  directionList.flatMap fun d => neighborWalk g p d can_jump (g.width + g.height + 1) 1

/-- The coordinates of all cells owned by the grid (row-major). -/
def Grid.allCells (g : Grid) : List Pos :=
  (List.range g.height).flatMap fun y =>
    (List.range g.width).map fun x => (Int.ofNat x, Int.ofNat y)

/-- environment.py `Grid.net_area`: total area minus the number of blocked
cells. -/
def Grid.net_area (g : Grid) (st : PMap) : Nat :=
  g.height * g.width - (g.allCells.countP fun p => (st p).blocked)

/-- State of a grid as built by `Grid.__init__` from a list of wall rectangles
`(x, y, w, h)`: a cell is blocked iff some rectangle contains it; all search
annotations start cleared. -/
def mkWallState (walls : List (Int × Int × Int × Int)) : PMap :=
  fun p =>
    { g := 0, h := 0, parent := none,
      blocked := walls.any fun w =>
        decide (w.1 ≤ p.1) && decide (p.1 < w.1 + w.2.2.1) &&
        decide (w.2.1 ≤ p.2) && decide (p.2 < w.2.1 + w.2.2.2) }

/-- Python exceptions reachable in the modelled code. -/
inductive PyExc : Type where
  | attributeError
  | valueError
deriving DecidableEq, Repr

instance {ε α : Type} [DecidableEq ε] [DecidableEq α] : DecidableEq (Except ε α) :=
  fun x y =>
    match x, y with
    | Except.error a, Except.error b =>
      if h : a = b then Decidable.isTrue (by rw [h]) else
        Decidable.isFalse (fun hc => h (Except.error.inj hc))
    | Except.ok a, Except.ok b =>
      if h : a = b then Decidable.isTrue (by rw [h]) else
        Decidable.isFalse (fun hc => h (Except.ok.inj hc))
    | Except.error _, Except.ok _ => Decidable.isFalse (fun hc => Except.noConfusion hc)
    | Except.ok _, Except.error _ => Decidable.isFalse (fun hc => Except.noConfusion hc)

/-- environment.py `Agent`: `Agent.__init__` (lines 292-299) stores exactly the
attributes `grid`, `cell`, `goals` and `can_jump`.  The agent's cell and goal
cells are the grid cells at the given coordinates. -/
structure Agent : Type where
  grid : Grid
  cell : Pos
  goals : List Pos
  can_jump : Bool
deriving DecidableEq, Repr

/-- The attribute lookup `agent.map`.  `Agent.__init__` sets only the
attributes `grid`, `cell`, `goals`, `can_jump`; no code in the repository ever
assigns a `map` attribute, so for every constructible `Agent` this lookup
raises `AttributeError` and produces no value (hence the `Empty` payload). -/
def Agent.mapAttr (_ : Agent) : Except PyExc Empty :=
  Except.error PyExc.attributeError

/-- environment.py `Agent.trace_path`: walk `parent` links from `cell`,
emitting one token per edge — `(cell.parent - cell).value` inserted at the
front when `backward`, `(cell - cell.parent).value` appended otherwise — with
the `_distance` suffix exactly when the agent is jump-capable.  The Python
`while cell.parent` loop diverges on a cyclic parent chain, so the model takes
fuel and returns `none` when it runs out. -/
def trace_path (can_jump : Bool) (st : PMap) : Nat → Bool → Pos → Option (List Tok)
  | 0, _, p =>
    match (st p).parent with
    | none => some []
    | some _ => none
  | Nat.succ f, backward, p =>
    match (st p).parent with
    | none => some []
    | some q =>
      (trace_path can_jump st f backward q).map fun rest =>
        let t : Tok :=
          ⟨(if backward then dirFromTo q p else dirFromTo p q),
           (if can_jump then some (manhattan p q) else none)⟩
        if backward then rest ++ [t] else t :: rest

/-- environment.py `Agent.get_nearest_goal`: `min(goals, key=manhattan from the
agent's cell)` — the first goal attaining the minimum; Python `min` raises
`ValueError` on an empty list, so the model returns `none` there. -/
def Agent.get_nearest_goal (a : Agent) : Option Pos :=
  match a.goals with
  | [] => none
  | g0 :: gs =>
    some (gs.foldl (fun best x =>
      if manhattan a.cell x < manhattan a.cell best then x else best) g0)

/-- The result of a single-goal search: the success dictionary
`{'path': …, 'goal': …, 'count': …}` or the bare visited count returned on
failure. -/
inductive SingleRes : Type where
  | found (path : List Tok) (goal : Pos) (count : Nat)
  | fail (count : Nat)
deriving DecidableEq, Repr

/-- The result of an all-goals search: the success dictionary (with the ordered
list of goals reached) or the bare visited count. -/
inductive AllRes : Type where
  | found (path : List Tok) (goals : List Pos) (count : Nat)
  | fail (count : Nat)
deriving DecidableEq, Repr

/-- The visited count carried by a single-goal result. -/
def SingleRes.count : SingleRes → Nat
  | SingleRes.found _ _ c => c
  | SingleRes.fail c => c

namespace bfs

/-- The FIFO loop of bfs.py `search` (lines 46-71): pop the queue head, return
the traced path when it is a goal, else enqueue each unblocked unvisited
neighbor (in `get_neighbors` order), recording its parent and bumping the
count; when the queue empties, return the bare count. -/
def loop (gr : Grid) (goals : List Pos) (cj : Bool) (tf : Nat) :
    Nat → List Pos → List Pos → Nat → PMap → Option (SingleRes × PMap)
  | 0, _, _, _, _ => none
  | Nat.succ fuel, queue, visited, count, st =>
    match queue with
    | [] => some (SingleRes.fail count, st)
    | current :: rest =>
      if current ∈ goals then
        (trace_path cj st tf true current).map fun path =>
          (SingleRes.found path current count, st)
      else
        let s := (gr.get_neighbors current false).foldl
          (fun (acc : List Pos × List Pos × Nat × PMap) n =>
            if !(acc.2.2.2 n).blocked ∧ n ∉ acc.2.1 then
              (acc.1 ++ [n], n :: acc.2.1, acc.2.2.1 + 1, setParent acc.2.2.2 n current)
            else acc)
          (rest, visited, count, st)
        loop gr goals cj tf fuel s.1 s.2.1 s.2.2.1 s.2.2.2

/-- The body of bfs.py `search` as it runs on a grid `m`: reset, the
start-is-goal short circuit, then the FIFO loop from
`queue = [start]`, `visited = {start}`, `count = 1`.  In the repository this
body is unreachable (the first statement `agent.map.reset()` raises), so this
definition is the documented intent used to evaluate the claimed behavior. -/
def search_on_grid (m : Grid) (tf : Nat) (a : Agent) (st0 : PMap) :
    Option (SingleRes × PMap) :=
  let st := resetState st0
  let start := a.cell
  if start ∈ a.goals then some (SingleRes.found [] start 1, st)
  else loop m a.goals a.can_jump tf tf [start] [start] 1 st

/-- bfs.py `search`: its first statement (line 31) is `agent.map.reset()`, and
no `Agent` has a `map` attribute, so the call raises `AttributeError` before
any search step; the rest of the body never runs on any constructible agent. -/
def search (_tf : Nat) (a : Agent) (_st : PMap) : Except PyExc (Option (SingleRes × PMap)) :=
  (Agent.mapAttr a).bind fun m => nomatch m

/-- bfs.py `search_all`: its first statement (line 90) is `agent.map.reset()`,
which raises `AttributeError` for every `Agent`. -/
def search_all (_tf : Nat) (a : Agent) (_st : PMap) :
    Except PyExc (Option (AllRes × Agent × PMap)) :=
  (Agent.mapAttr a).bind fun m => nomatch m

end bfs

namespace dfs

/-- dfs.py `search`: its first statement (line 31) is `agent.map.reset()`,
which raises `AttributeError` for every `Agent`; the stack-based body after it
never runs on any constructible agent. -/
def search (_tf : Nat) (a : Agent) (_st : PMap) :
    Except PyExc (Option (SingleRes × PMap)) :=
  (Agent.mapAttr a).bind fun m => nomatch m

/-- dfs.py `search_all`: first statement (line 90) `agent.map.reset()` raises
`AttributeError` for every `Agent`. -/
def search_all (_tf : Nat) (a : Agent) (_st : PMap) :
    Except PyExc (Option (AllRes × Agent × PMap)) :=
  (Agent.mapAttr a).bind fun m => nomatch m

end dfs

namespace astar

/-- astar.py `search`: first statement (line 31) `agent.map.reset()` raises
`AttributeError` for every `Agent`; the heap-based body after it never runs on
any constructible agent. -/
def search (_tf : Nat) (a : Agent) (_st : PMap) :
    Except PyExc (Option (SingleRes × PMap)) :=
  (Agent.mapAttr a).bind fun m => nomatch m

/-- astar.py `search_all`: first statement (line 114) `agent.map.reset()`
raises `AttributeError` for every `Agent`. -/
def search_all (_tf : Nat) (a : Agent) (_st : PMap) :
    Except PyExc (Option (AllRes × Agent × PMap)) :=
  (Agent.mapAttr a).bind fun m => nomatch m

end astar

namespace greedy

/-- greedy.py `search`: first statement (line 31) `agent.map.reset()` raises
`AttributeError` for every `Agent`. -/
def search (_tf : Nat) (a : Agent) (_st : PMap) :
    Except PyExc (Option (SingleRes × PMap)) :=
  (Agent.mapAttr a).bind fun m => nomatch m

/-- greedy.py `search_all`: first statement (line 99) `agent.map.reset()`
raises `AttributeError` for every `Agent`. -/
def search_all (_tf : Nat) (a : Agent) (_st : PMap) :
    Except PyExc (Option (AllRes × Agent × PMap)) :=
  (Agent.mapAttr a).bind fun m => nomatch m

end greedy

namespace bidirectional

/-- bidirectional.py `search`: first statement (line 31) `agent.map.reset()`
raises `AttributeError` for every `Agent`; the two-frontier body after it
never runs on any constructible agent. -/
def search (_tf : Nat) (a : Agent) (_st : PMap) :
    Except PyExc (Option (SingleRes × PMap)) :=
  (Agent.mapAttr a).bind fun m => nomatch m

/-- bidirectional.py `search_all`: first statement (line 151)
`agent.map.reset()` raises `AttributeError` for every `Agent`. -/
def search_all (_tf : Nat) (a : Agent) (_st : PMap) :
    Except PyExc (Option (AllRes × Agent × PMap)) :=
  (Agent.mapAttr a).bind fun m => nomatch m

end bidirectional

namespace iddfs

/-- The result of iddfs.py `dls`: the dictionary (`success`, optional `goal`,
`count`) together with the visited set and cell state it mutated in place. -/
structure DRes : Type where
  goal : Option Pos
  count : Nat
  visited : List Pos
  st : PMap

/-- The neighbor loop of iddfs.py `dls` (lines 53-76), parameterized by the
recursive call `f` at depth `max_depth - 1`: before each neighbor, if the
count has reached `limit`, return failure; skip blocked or visited neighbors;
otherwise add the neighbor to `visited`, bump the count and recurse — on
success set the neighbor's parent to `current` and propagate the goal, on
failure remove the neighbor from `visited` and continue with the next one. -/
def dlsLoop (limit : Nat) (f : Pos → List Pos → Nat → PMap → DRes) (current : Pos) :
    List Pos → List Pos → Nat → PMap → DRes
  | [], visited, count, st => ⟨none, count, visited, st⟩
  | n :: ns, visited, count, st =>
    if limit ≤ count then ⟨none, count, visited, st⟩
    else if (st n).blocked ∨ n ∈ visited then dlsLoop limit f current ns visited count st
    else
      let r := f n (n :: visited) (count + 1) st
      match r.goal with
      | some gl => ⟨some gl, r.count, r.visited, setParent r.st n current⟩
      | none => dlsLoop limit f current ns (r.visited.erase n) r.count r.st

/-- iddfs.py `dls` (lines 18-81): success when `current` is a goal; failure
when the depth is exhausted; otherwise the neighbor loop over
`agent.grid.get_neighbors(current)` (no jumping) with the recursive call one
depth lower. -/
def dls (gr : Grid) (goals : List Pos) (limit : Nat) :
    Nat → Pos → List Pos → Nat → PMap → DRes
  | 0, current, visited, count, st =>
    if current ∈ goals then ⟨some current, count, visited, st⟩
    else ⟨none, count, visited, st⟩
  | Nat.succ d, current, visited, count, st =>
    if current ∈ goals then ⟨some current, count, visited, st⟩
    else dlsLoop limit (dls gr goals limit d) current (gr.get_neighbors current false)
      visited count st

/-- The depth loop shared by iddfs.py `search` (lines 108-120) and `search_all`
(lines 152-176): for each depth in turn, run `dls` from `start` with a fresh
visited set `{start}`, threading the accumulated count; stop at the first
success. -/
def depths (gr : Grid) (goals : List Pos) (limit : Nat) (start : Pos) :
    List Nat → Nat → PMap → Option Pos × Nat × PMap
  | [], count, st => (none, count, st)
  | d :: rest, count, st =>
    let r := dls gr goals limit d start [start] count st
    match r.goal with
    | some gl => (some gl, r.count, r.st)
    | none => depths gr goals limit start rest r.count r.st

/-- iddfs.py `search` (lines 84-122): `agent.grid.reset()`, then depth-limited
searches at depths `0 .. net_area` with one accumulated count starting at 1;
on success return the traced path, goal and count, else the bare count. -/
def search (tf : Nat) (a : Agent) (limit : Nat) (st0 : PMap) :
    Option (SingleRes × PMap) :=
  let st := resetState st0
  let start := a.cell
  let md := a.grid.net_area st
  match depths a.grid a.goals limit start (List.range (md + 1)) 1 st with
  | (some gl, count, st') =>
    (trace_path a.can_jump st' tf true gl).map fun path =>
      (SingleRes.found path gl count, st')
  | (none, count, st') => some (SingleRes.fail count, st')

/-- The outer `while agent.goals and count < limit` loop of iddfs.py
`search_all` (lines 150-179): run the depth loop from the current start; on
success append the goal and its traced path, remove it from the agent's goals
and — unless no goal remains — clear the new start's parent and continue; on
failure (or once the guard fails) return the bare count.  The loop removes one
goal per continued iteration, so the `gfuel` argument, instantiated with
`goals.length + 1` by `search_all`, never runs out. -/
def searchAllLoop (gr : Grid) (limit : Nat) (cj : Bool) (tf : Nat) (md : Nat) :
    Nat → List Pos → Pos → Nat → List Tok → List Pos → PMap →
    Option (AllRes × List Pos × PMap)
  | 0, _, _, _, _, _, _ => none
  | Nat.succ gfuel, goals, start, count, path, acc, st =>
    if goals ≠ [] ∧ count < limit then
      match depths gr goals limit start (List.range (md + 1)) count st with
      | (some gl, count', st1) =>
        match trace_path cj st1 tf true gl with
        | none => none
        | some p =>
          let goals' := goals.erase gl
          let path' := path ++ p
          let acc' := acc ++ [gl]
          if goals' = [] then some (AllRes.found path' acc' count', goals', st1)
          else searchAllLoop gr limit cj tf md gfuel goals' gl count' path' acc'
            (clearParent st1 gl)
      | (none, count', st1) => some (AllRes.fail count', goals, st1)
    else some (AllRes.fail count, goals, st)

/-- iddfs.py `search_all` (lines 125-181): reset, compute `net_area` once,
then the outer loop; the returned agent carries the mutated goal list. -/
def search_all (tf : Nat) (a : Agent) (limit : Nat) (st0 : PMap) :
    Option (AllRes × Agent × PMap) :=
  let st := resetState st0
  let md := a.grid.net_area st
  (searchAllLoop a.grid limit a.can_jump tf md (a.goals.length + 1)
      a.goals a.cell 1 [] [] st).map
    fun r => (r.1, { a with goals := r.2.1 }, r.2.2)

end iddfs

namespace beam

/-- `f` value of a cell: environment.py `Cell.f`, the sum `g + h`. -/
def fval (st : PMap) (p : Pos) : Nat := (st p).g + (st p).h

/-- Python `min(open_list, key=lambda cell: cell.f)` over `x :: xs`: the first
element attaining the minimal `f`. -/
def minByF (st : PMap) (x : Pos) (xs : List Pos) : Pos :=
  xs.foldl (fun best c => if fval st c < fval st best then c else best) x

/-- Stable insertion used to model Python's stable `sorted(..., key f)`:
`x` goes after every element whose key is ≤ its own. -/
def insertByF (st : PMap) (x : Pos) : List Pos → List Pos
  | [] => [x]
  | y :: ys => if fval st y ≤ fval st x then y :: insertByF st x ys else x :: y :: ys

/-- Python `sorted(open_list, key=lambda cell: cell.f)`: a stable sort by `f`
(Python's sort is stable), modelled as left-to-right stable insertion. -/
def sortByF (st : PMap) (l : List Pos) : List Pos :=
  l.foldl (fun acc x => insertByF st x acc) []

/-- The neighbor expansion of beam.py `search` (lines 42-54), one `foldl` step
per neighbor: skip blocked or closed cells; a cell not in the open list is
appended to it with `h = manhattan(·, goal)` and `parent = current`, bumping
the count; a cell already in the open list has `g` and `parent` updated when
`current.g + 1 < neighbor.g`; otherwise nothing happens. -/
def expandStep (goals_target : Pos) (current : Pos) (closed1 : List Pos)
    (acc : List Pos × Nat × PMap) (n : Pos) : List Pos × Nat × PMap :=
  if (acc.2.2 n).blocked ∨ n ∈ closed1 then acc
  else if n ∈ acc.1 then
    (if (acc.2.2 current).g + 1 < (acc.2.2 n).g then
      (acc.1, acc.2.1, setParent (setG acc.2.2 n ((acc.2.2 current).g + 1)) n current)
    else acc)
  else
    (acc.1 ++ [n], acc.2.1 + 1,
      setParent (setH acc.2.2 n (manhattan n goals_target)) n current)

/-- The whole `for neighbor in agent.grid.get_neighbors(current)` loop of
beam.py `search`, as a fold of `expandStep` over the neighbor list. -/
def expandState (gr : Grid) (target current : Pos) (closed1 opn1 : List Pos)
    (count : Nat) (st : PMap) : List Pos × Nat × PMap :=
  (gr.get_neighbors current false).foldl (expandStep target current closed1)
    (opn1, count, st)

/-- The `while open_list` loop of beam.py `search` (lines 29-56): pop the first
minimal-`f` cell into the closed set; if it is a goal, return its traced path
and the count; else expand its neighbors, then re-sort the open list by `f`
and truncate it to the beam width. -/
def loop (gr : Grid) (goals : List Pos) (target : Pos) (bw : Nat) (cj : Bool) (tf : Nat) :
    Nat → List Pos → List Pos → Nat → PMap → Option (SingleRes × PMap)
  | 0, _, _, _, _ => none
  | Nat.succ fuel, opn, closed, count, st =>
    match opn with
    | [] => some (SingleRes.fail count, st)
    | x :: xs =>
      let current := minByF st x xs
      let opn1 := (x :: xs).erase current
      let closed1 := closed ++ [current]
      if current ∈ goals then
        (trace_path cj st tf true current).map fun path =>
          (SingleRes.found path current count, st)
      else
        let s := expandState gr target current closed1 opn1 count st
        loop gr goals target bw cj tf fuel ((sortByF s.2.2 s.1).take bw) closed1 s.2.1 s.2.2

/-- beam.py `search` (lines 8-57): no reset; `start = agent.cell`,
`goal = agent.get_nearest_goal()` (Python `min` raises `ValueError` on an
empty goal list), then the loop from `open_list = [start]`,
`closed_set = {}`, `count = 1` with the given beam width (default 2). -/
def search (tf : Nat) (a : Agent) (bw : Nat) (st : PMap) :
    Except PyExc (Option (SingleRes × PMap)) :=
  match a.get_nearest_goal with
  | none => Except.error PyExc.valueError
  | some target =>
    Except.ok (loop a.grid a.goals target bw a.can_jump tf tf [a.cell] [] 1 st)

end beam

/-- The seven search algorithms of the algorithms/ package. -/
inductive Alg : Type where
  | bfs
  | dfs
  | iddfs
  | astar
  | greedy
  | beam
  | bidirectional
deriving DecidableEq, Repr

/-- Dispatch on an algorithm's single-goal entry point `search(agent, …)`:
`tf` is model fuel, `limit` the iddfs visited ceiling (Python default 10^5),
`bw` the beam width (Python default 2); the other algorithms ignore them. -/
def runSingle (alg : Alg) (tf : Nat) (a : Agent) (limit bw : Nat) (st : PMap) :
    Except PyExc (Option (SingleRes × PMap)) :=
  match alg with
  | Alg.bfs => bfs.search tf a st
  | Alg.dfs => dfs.search tf a st
  | Alg.iddfs => Except.ok (iddfs.search tf a limit st)
  | Alg.astar => astar.search tf a st
  | Alg.greedy => greedy.search tf a st
  | Alg.beam => beam.search tf a bw st
  | Alg.bidirectional => bidirectional.search tf a st

/-- Forget the final state of a single-goal run (cell states are functions, so
theorems compare the returned dictionary / count only). -/
def resultOf (x : Except PyExc (Option (SingleRes × PMap))) :
    Except PyExc (Option SingleRes) :=
  x.map (Option.map Prod.fst)

/-- Forget the final state and agent of an all-goals run. -/
def allResultOf (x : Option (AllRes × Agent × PMap)) : Option AllRes :=
  x.map Prod.fst

/-- The goal list of the agent returned by an all-goals run. -/
def goalsAfter (x : Option (AllRes × Agent × PMap)) : Option (List Pos) :=
  x.map fun r => r.2.1.goals

/-! Specification-side notions used to state the claims: single moves, chains
of moves, parent spines, token application, and a reachability closure. -/

/-- One legal move of the claims: `b` is returned by `get_neighbors a` (no
jumping) and is not blocked in the reference state `st0`. -/
def Step (gr : Grid) (st0 : PMap) (a b : Pos) : Prop :=
  b ∈ gr.get_neighbors a false ∧ (st0 b).blocked = false

/-- `l` lists the successive cells of a sequence of legal moves from `a`. -/
def IsChain (gr : Grid) (st0 : PMap) : Pos → List Pos → Prop
  | _, [] => True
  | a, b :: t => Step gr st0 a b ∧ IsChain gr st0 b t

/-- The final cell of the chain `a :: l`. -/
def lastCell (a : Pos) (l : List Pos) : Pos := l.getLastD a

/-- Write the parent links of the chain `a :: l` into the state: each cell of
`l` points back to its predecessor (exactly the links `dls` establishes while
unwinding a success, innermost first). -/
def writeChain (st : PMap) : Pos → List Pos → PMap
  | _, [] => st
  | a, b :: t => setParent (writeChain st b t) b a

/-- Each cell of the list points back to the cell listed before it. -/
def parentsAlong (st : PMap) : List Pos → Prop
  | [] => True
  | [_] => True
  | u :: v :: rest => (st v).parent = some u ∧ parentsAlong st (v :: rest)

/-- The full parent spine of `p`: the cells from the parentless root down to
`p` inclusive, or `none` when `fuel` steps do not reach a root. -/
def spine (st : PMap) : Nat → Pos → Option (List Pos)
  | 0, p =>
    match (st p).parent with
    | none => some [p]
    | some _ => none
  | Nat.succ f, p =>
    match (st p).parent with
    | none => some [p]
    | some q => (spine st f q).map fun cells => cells ++ [p]

/-- The token `trace_path` emits for a walk step from `u` to `v` (backward
tracing): direction `u - v`, with the distance suffix when jump-capable. -/
def mkTok (cj : Bool) (u v : Pos) : Tok :=
  ⟨dirFromTo u v, if cj then some (manhattan v u) else none⟩

/-- The tokens of the consecutive edges of a cell list, in walk order. -/
def tokensOf (cj : Bool) : List Pos → List Tok
  | [] => []
  | [_] => []
  | u :: v :: rest => mkTok cj u v :: tokensOf cj (v :: rest)

/-- Apply one direction token from `p`: move `dist` cells (1 when the token has
no suffix) in the token's direction, requiring every cell stepped through to be
inside the grid and unblocked. -/
def applyTok (gr : Grid) (st : PMap) (p : Pos) (t : Tok) : Option Pos :=
  let d := t.dist.getD 1
  if (List.range d).all
      (fun i => decide (gr.validP (stepPos p t.dir ((i : Int) + 1))) &&
        !(st (stepPos p t.dir ((i : Int) + 1))).blocked) then
    some (stepPos p t.dir (d : Int))
  else none

/-- Apply a token list from `p` in sequence; `none` as soon as a token leaves
the grid or enters a blocked cell. -/
def applyWalk (gr : Grid) (st : PMap) : Pos → List Tok → Option Pos
  | p, [] => some p
  | p, t :: ts =>
    match applyTok gr st p t with
    | some q => applyWalk gr st q ts
    | none => none

/-- Extend the accumulator with the unblocked in-bounds neighbors of `p` that
it does not yet contain. -/
def addNew (gr : Grid) (st : PMap) (acc : List Pos) (p : Pos) : List Pos :=
  (gr.get_neighbors p false).foldl
    (fun a n => if (st n).blocked = false ∧ n ∉ a then a ++ [n] else a) acc

/-- One round of the reachability closure: expand every cell currently in the
accumulator. -/
def reachStep (gr : Grid) (st : PMap) (acc : List Pos) : List Pos :=
  acc.foldl (addNew gr st) acc

/-- The cells reachable from `start` by legal moves: `height * width` rounds of
expansion saturate the closure on any chain of distinct cells. -/
def reachSet (gr : Grid) (st : PMap) (start : Pos) : List Pos :=
  (reachStep gr st)^[gr.height * gr.width] [start]

/-- The invariant of one beam expansion fold: the open list stays
duplicate-free and disjoint from the closed set, `g` stays 0 everywhere (so the
relaxation branch is dead), blocked flags never change, every closed cell is
the end of a rooted parent chain of legal moves through closed cells, and every
open cell points back into the closed set with one legal move. -/
structure ExpInv (gr : Grid) (st0 : PMap) (start : Pos) (closed1 : List Pos)
    (s : List Pos × Nat × PMap) : Prop where
  blockedEq : sameBlocked s.2.2 st0
  gZero : ∀ p, (s.2.2 p).g = 0
  startParent : (s.2.2 start).parent = none
  opnNodup : s.1.Nodup
  disj : ∀ c ∈ s.1, c ∉ closed1
  rooted : ∀ c ∈ closed1, ∃ l, IsChain gr st0 start l ∧ c = lastCell start l ∧
      parentsAlong s.2.2 (start :: l) ∧ (start :: l).Nodup ∧ ∀ y ∈ start :: l, y ∈ closed1
  opnChain : ∀ c ∈ s.1, c = start ∨
      ∃ p, p ∈ closed1 ∧ (s.2.2 c).parent = some p ∧ Step gr st0 p c

/-- The loop invariant of beam.py `search`. -/
structure BeamInv (gr : Grid) (st0 : PMap) (start : Pos)
    (opn closed : List Pos) (st : PMap) : Prop where
  blockedEq : sameBlocked st st0
  gZero : ∀ p, (st p).g = 0
  startParent : (st start).parent = none
  emptyCase : closed = [] → opn = [start]
  startClosed : closed ≠ [] → start ∈ closed
  opnNodup : opn.Nodup
  disj : ∀ c ∈ opn, c ∉ closed
  rooted : ∀ c ∈ closed, ∃ l, IsChain gr st0 start l ∧ c = lastCell start l ∧
      parentsAlong st (start :: l) ∧ (start :: l).Nodup ∧ ∀ y ∈ start :: l, y ∈ closed
  opnChain : ∀ c ∈ opn, c = start ∨
      ∃ p, p ∈ closed ∧ (st c).parent = some p ∧ Step gr st0 p c

/-! ## Concrete scenarios

Concrete grids, agents and cell states used to evaluate the search functions
at specific inputs.  `mkWallState` builds the blocked flags from a wall list
exactly as `Grid.__init__` does, with all search annotations clear. -/

/-- An open 5x5 grid: the map of bfs.py's docstring example. -/
def gr55 : Grid := { height := 5, width := 5 }

/-- Agent at (0,0) seeking (4,4) on the open 5x5 grid, no jumping. -/
def ag55 : Agent :=
  { grid := gr55, cell := ((0 : Int), (0 : Int)),
    goals := [((4 : Int), (4 : Int))], can_jump := false }

/-- Cell states of the open 5x5 grid (no walls). -/
def st55 : PMap := mkWallState []

/-- The unique shortest 4-down-4-right path BFS's direction order produces on
the open 5x5 grid. -/
def path8 : List Tok :=
  [⟨Direction.down, none⟩, ⟨Direction.down, none⟩, ⟨Direction.down, none⟩,
   ⟨Direction.down, none⟩, ⟨Direction.right, none⟩, ⟨Direction.right, none⟩,
   ⟨Direction.right, none⟩, ⟨Direction.right, none⟩]

/-- A 3x3 grid. -/
def gr33 : Grid := { height := 3, width := 3 }

/-- Walls `(2,1,1,1)` and `(1,2,1,1)` enclose the corner cell (2,2) of the
3x3 grid. -/
def st33 : PMap := mkWallState [(2, 1, 1, 1), (1, 2, 1, 1)]

/-- Agent at (0,0) seeking the enclosed corner (2,2) of the walled 3x3 grid. -/
def ag33 : Agent :=
  { grid := gr33, cell := ((0 : Int), (0 : Int)),
    goals := [((2 : Int), (2 : Int))], can_jump := false }

/-- A 1x2 grid (one row, two columns). -/
def gr12 : Grid := { height := 1, width := 2 }

/-- Agent at (0,0) seeking (1,0) on the 1x2 grid. -/
def ag12 : Agent :=
  { grid := gr12, cell := ((0 : Int), (0 : Int)),
    goals := [((1 : Int), (0 : Int))], can_jump := false }

/-- The same agent after every goal has been removed, as iddfs.py's
`search_all` leaves it. -/
def ag12e : Agent :=
  { grid := gr12, cell := ((0 : Int), (0 : Int)), goals := [], can_jump := false }

/-- Cell states of the open 1x2 grid. -/
def st12 : PMap := mkWallState []

/-- The 1x2 state with a stale parent annotation on the start cell's
neighbour, as a previous search leaves it. -/
def st12b : PMap := setParent st12 ((0 : Int), (0 : Int)) ((1 : Int), (0 : Int))

/-- A 2x2 grid. -/
def gr22 : Grid := { height := 2, width := 2 }

/-- Agent on the open 2x2 grid whose start (0,0) is itself the goal. -/
def agS : Agent :=
  { grid := gr22, cell := ((0 : Int), (0 : Int)),
    goals := [((0 : Int), (0 : Int))], can_jump := false }

/-- Cell states of the open 2x2 grid. -/
def st22 : PMap := mkWallState []

/-- The 2x2 state with a stale parent annotation left by an earlier search:
(0,0) points at (1,0). -/
def st22stale : PMap := setParent st22 ((0 : Int), (0 : Int)) ((1 : Int), (0 : Int))

/-! Basic facts about state updates. -/

theorem setParent_self (st : PMap) (p q : Pos) :
    setParent st p q p = { st p with parent := some q } := by
  simp [setParent]

theorem setParent_other (st : PMap) (p q r : Pos) (h : r ≠ p) :
    setParent st p q r = st r := by
  simp [setParent, h]

theorem setParent_fields (st : PMap) (p q r : Pos) :
    (setParent st p q r).g = (st r).g ∧ (setParent st p q r).h = (st r).h ∧
    (setParent st p q r).blocked = (st r).blocked := by
  unfold setParent
  by_cases h : r = p <;> simp [h]

theorem setH_fields (st : PMap) (p : Pos) (v : Nat) (r : Pos) :
    (setH st p v r).g = (st r).g ∧ (setH st p v r).parent = (st r).parent ∧
    (setH st p v r).blocked = (st r).blocked := by
  unfold setH
  by_cases h : r = p <;> simp [h]

theorem setH_other (st : PMap) (p : Pos) (v : Nat) (r : Pos) (h : r ≠ p) :
    setH st p v r = st r := by
  simp [setH, h]

theorem setG_fields (st : PMap) (p : Pos) (v : Nat) (r : Pos) :
    (setG st p v r).h = (st r).h ∧ (setG st p v r).parent = (st r).parent ∧
    (setG st p v r).blocked = (st r).blocked := by
  unfold setG
  by_cases h : r = p <;> simp [h]

theorem clearParent_blocked (st : PMap) (p r : Pos) :
    (clearParent st p r).blocked = (st r).blocked := by
  unfold clearParent
  by_cases h : r = p <;> simp [h]

theorem resetState_apply (st : PMap) (p : Pos) :
    resetState st p = { st p with g := 0, h := 0, parent := none } := rfl

theorem resetState_congr {st st' : PMap} (h : sameBlocked st st') :
    resetState st = resetState st' := by
  funext p
  have := h p
  simp [resetState]
  exact this

/-! Characterization of `get_neighbors` (environment.py lines 192-253). -/

theorem flatMap_option_toList (f : Direction → Option Pos) :
    ∀ l : List Direction, (l.flatMap fun d => (f d).toList) = l.filterMap f := by
  intro l
  induction l with
  | nil => rfl
  | cons d rest ih =>
    cases h : f d <;> simp [List.flatMap_cons, List.filterMap_cons, h, ih]

theorem neighborWalk_false (gr : Grid) (p : Pos) (d : Direction) (f : Nat) (k : Int) :
    neighborWalk gr p d false (Nat.succ f) k = (gr.get_neighbor p d k).toList := by
  unfold neighborWalk
  cases gr.get_neighbor p d k <;> simp

theorem get_neighbors_false_eq (gr : Grid) (p : Pos) :
    gr.get_neighbors p false = directionList.filterMap
      (fun d => if gr.validP (stepPos p d 1) then some (stepPos p d 1) else none) := by
  unfold Grid.get_neighbors
  have hw : gr.width + gr.height + 1 = Nat.succ (gr.width + gr.height) := rfl
  rw [hw]
  have h1 : ∀ d, neighborWalk gr p d false (Nat.succ (gr.width + gr.height)) 1 =
      ((fun d => if gr.validP (stepPos p d 1) then some (stepPos p d 1) else none) d).toList := by
    intro d
    rw [neighborWalk_false]
    rfl
  calc directionList.flatMap
        (fun d => neighborWalk gr p d false (Nat.succ (gr.width + gr.height)) 1)
      = directionList.flatMap (fun d =>
          ((fun d => if gr.validP (stepPos p d 1) then some (stepPos p d 1) else none) d).toList) := by
        exact List.flatMap_congr (fun d _ => h1 d)
    _ = directionList.filterMap
          (fun d => if gr.validP (stepPos p d 1) then some (stepPos p d 1) else none) :=
        flatMap_option_toList _ directionList

theorem mem_get_neighbors_false (gr : Grid) (p b : Pos)
    (h : b ∈ gr.get_neighbors p false) :
    ∃ d, d ∈ directionList ∧ b = stepPos p d 1 ∧ gr.validP b := by
  rw [get_neighbors_false_eq] at h
  rcases List.mem_filterMap.mp h with ⟨d, hd, hv⟩
  by_cases hval : gr.validP (stepPos p d 1)
  · simp only [hval, if_true, Option.some.injEq] at hv
    subst hv
    exact ⟨d, hd, rfl, hval⟩
  · simp [hval] at hv

theorem neighborWalk_true_takeWhile (gr : Grid) (p : Pos) (d : Direction) :
    ∀ (n k : Nat), ¬ gr.validP (stepPos p d ((k + n : Nat) : Int)) →
    neighborWalk gr p d true (n + 1) (k : Int) =
      ((List.range' k (n + 1)).takeWhile
        (fun (j : Nat) => decide (gr.validP (stepPos p d (j : Int))))).map
        (fun (j : Nat) => stepPos p d (j : Int)) := by
  intro n
  induction n with
  | zero =>
    intro k hk
    simp only [Nat.add_zero] at hk
    unfold neighborWalk Grid.get_neighbor
    simp [List.range', hk]
  | succ n ih =>
    intro k hk
    by_cases hv : gr.validP (stepPos p d (k : Int))
    · have step1 : neighborWalk gr p d true (n + 1 + 1) (k : Int) =
          stepPos p d (k : Int) :: neighborWalk gr p d true (n + 1) ((k : Int) + 1) := by
        conv_lhs => unfold neighborWalk
        simp [Grid.get_neighbor, hv]
      rw [step1]
      have hcast : ((k : Int) + 1) = ((k + 1 : Nat) : Int) := by push_cast; ring
      have hk' : ¬ gr.validP (stepPos p d (((k + 1) + n : Nat) : Int)) := by
        have : (k + 1) + n = k + (n + 1) := by omega
        rw [this]
        exact hk
      rw [hcast, ih (k + 1) hk']
      conv_rhs => rw [List.range'_succ]
      rw [List.takeWhile_cons]
      simp [hv]
    · have : neighborWalk gr p d true (n + 1 + 1) (k : Int) = [] := by
        conv_lhs => unfold neighborWalk
        simp [Grid.get_neighbor, hv]
      rw [this, List.range'_succ]
      simp [hv]

theorem valid_run_bounded (gr : Grid) (p : Pos) (d : Direction)
    (h1 : gr.validP (stepPos p d 1)) :
    ¬ gr.validP (stepPos p d ((1 + (gr.width + gr.height) : Nat) : Int)) := by
  rcases p with ⟨x, y⟩
  cases d <;>
    simp only [stepPos, Grid.validP, Grid.is_valid] at h1 ⊢ <;>
    push_cast <;> omega

theorem get_neighbors_true_eq (gr : Grid) (p : Pos) :
    gr.get_neighbors p true = directionList.flatMap (fun d =>
      ((List.range' 1 (gr.width + gr.height + 1)).takeWhile
        (fun (j : Nat) => decide (gr.validP (stepPos p d (j : Int))))).map
        (fun (j : Nat) => stepPos p d (j : Int))) := by
  unfold Grid.get_neighbors
  refine List.flatMap_congr (fun d _ => ?_)
  by_cases h1 : gr.validP (stepPos p d 1)
  · have := neighborWalk_true_takeWhile gr p d (gr.width + gr.height) 1
      (valid_run_bounded gr p d h1)
    simpa using this
  · have hwalk : neighborWalk gr p d true (gr.width + gr.height + 1) 1 = [] := by
      have : gr.width + gr.height + 1 = (gr.width + gr.height) + 1 := rfl
      rw [this]
      unfold neighborWalk
      simp [Grid.get_neighbor, h1]
    rw [hwalk, List.range'_succ]
    have h1' : ¬ gr.validP (stepPos p d ((1 : Nat) : Int)) := by simpa using h1
    simp [h1', h1]

/-! Single-step facts used to validate traced paths. -/

theorem dirFromTo_step1 (p : Pos) (d : Direction) :
    dirFromTo p (stepPos p d 1) = d := by
  rcases p with ⟨x, y⟩
  cases d <;> simp [stepPos, dirFromTo]

theorem manhattan_step1 (p : Pos) (d : Direction) :
    manhattan (stepPos p d 1) p = 1 := by
  rcases p with ⟨x, y⟩
  cases d <;> simp [stepPos, manhattan]

theorem applyTok_step (gr : Grid) (st0 : PMap) (cj : Bool) (a b : Pos)
    (h : Step gr st0 a b) : applyTok gr st0 a (mkTok cj a b) = some b := by
  rcases h with ⟨hmem, hblock⟩
  rcases mem_get_neighbors_false gr a b hmem with ⟨d, _, hb, hv⟩
  subst hb
  have hdir : dirFromTo a (stepPos a d 1) = d := dirFromTo_step1 a d
  have hman : manhattan (stepPos a d 1) a = 1 := manhattan_step1 a d
  cases cj <;>
    simp [applyTok, mkTok, hdir, hman, List.range, List.range.loop, hv, hblock]

/-! Parent spines and their relation to `trace_path`. -/

theorem spine_getLast (st : PMap) :
    ∀ (f : Nat) (p : Pos) (cells : List Pos), spine st f p = some cells →
    cells.getLast? = some p := by
  intro f
  induction f with
  | zero =>
    intro p cells h
    cases hp : (st p).parent with
    | none =>
      simp only [spine, hp, Option.some.injEq] at h
      subst h
      rfl
    | some q => simp [spine, hp] at h
  | succ f ih =>
    intro p cells h
    cases hp : (st p).parent with
    | none =>
      simp only [spine, hp, Option.some.injEq] at h
      subst h
      rfl
    | some q =>
      simp only [spine, hp, Option.map_eq_some'] at h
      rcases h with ⟨cs, _, hcells⟩
      subst hcells
      exact List.getLast?_concat cs

theorem spine_mono (st : PMap) :
    ∀ (f f' : Nat) (p : Pos) (cells : List Pos), f ≤ f' →
    spine st f p = some cells → spine st f' p = some cells := by
  intro f
  induction f with
  | zero =>
    intro f' p cells _ h
    cases hp : (st p).parent with
    | none =>
      simp only [spine, hp, Option.some.injEq] at h
      cases f' <;> simp [spine, hp, h]
    | some q => simp [spine, hp] at h
  | succ f ih =>
    intro f' p cells hle h
    cases hp : (st p).parent with
    | none =>
      simp only [spine, hp, Option.some.injEq] at h
      cases f' <;> simp [spine, hp, h]
    | some q =>
      simp only [spine, hp, Option.map_eq_some'] at h
      rcases h with ⟨cs, hcs, hcells⟩
      obtain ⟨f₁, rfl⟩ : ∃ f₁, f' = f₁ + 1 := ⟨f' - 1, by omega⟩
      have := ih f₁ q cs (by omega) hcs
      simp [spine, hp, this, hcells]

theorem spine_congr (st st' : PMap) :
    ∀ (f : Nat) (p : Pos) (cells : List Pos), spine st f p = some cells →
    (∀ c ∈ cells, st' c = st c) → spine st' f p = some cells := by
  intro f
  induction f with
  | zero =>
    intro p cells h hag
    cases hp : (st p).parent with
    | none =>
      simp only [spine, hp, Option.some.injEq] at h
      subst h
      have hp' : (st' p).parent = none := by rw [hag p (by simp)]; exact hp
      simp [spine, hp']
    | some q => simp [spine, hp] at h
  | succ f ih =>
    intro p cells h hag
    cases hp : (st p).parent with
    | none =>
      simp only [spine, hp, Option.some.injEq] at h
      subst h
      have hp' : (st' p).parent = none := by rw [hag p (by simp)]; exact hp
      simp [spine, hp']
    | some q =>
      simp only [spine, hp, Option.map_eq_some'] at h
      rcases h with ⟨cs, hcs, hcells⟩
      subst hcells
      have hsub : ∀ c ∈ cs, st' c = st c := fun c hc => hag c (by simp [hc])
      have hq := ih q cs hcs hsub
      have hp' : (st' p).parent = some q := by rw [hag p (by simp), hp]
      simp [spine, hp', hq]

theorem tokensOf_append (cj : Bool) :
    ∀ (cs : List Pos) (q p : Pos), cs.getLast? = some q →
    tokensOf cj (cs ++ [p]) = tokensOf cj cs ++ [mkTok cj q p] := by
  intro cs
  induction cs with
  | nil => intro q p h; simp at h
  | cons u rest ih =>
    intro q p h
    cases rest with
    | nil =>
      simp at h
      subst h
      simp [tokensOf]
    | cons v rest' =>
      have h' : (v :: rest').getLast? = some q := by
        rw [List.getLast?_cons_cons] at h
        exact h
      have hrec := ih q p h'
      calc tokensOf cj ((u :: v :: rest') ++ [p])
          = mkTok cj u v :: tokensOf cj ((v :: rest') ++ [p]) := by
            simp [tokensOf]
        _ = mkTok cj u v :: (tokensOf cj (v :: rest') ++ [mkTok cj q p]) := by rw [hrec]
        _ = tokensOf cj (u :: v :: rest') ++ [mkTok cj q p] := by simp [tokensOf]

theorem trace_eq_spine_some (cj : Bool) (st : PMap) :
    ∀ (f : Nat) (p : Pos) (cells : List Pos), spine st f p = some cells →
    trace_path cj st f true p = some (tokensOf cj cells) := by
  intro f
  induction f with
  | zero =>
    intro p cells h
    cases hp : (st p).parent with
    | none =>
      simp only [spine, hp, Option.some.injEq] at h
      subst h
      simp [trace_path, hp, tokensOf]
    | some q => simp [spine, hp] at h
  | succ f ih =>
    intro p cells h
    cases hp : (st p).parent with
    | none =>
      simp only [spine, hp, Option.some.injEq] at h
      subst h
      simp [trace_path, hp, tokensOf]
    | some q =>
      simp only [spine, hp, Option.map_eq_some'] at h
      rcases h with ⟨cs, hcs, hcells⟩
      subst hcells
      have htr := ih q cs hcs
      have hlast : cs.getLast? = some q := spine_getLast st f q cs hcs
      rw [tokensOf_append cj cs q p hlast]
      simp [trace_path, hp, htr, mkTok]

theorem trace_eq_spine_none (cj : Bool) (st : PMap) :
    ∀ (f : Nat) (p : Pos), spine st f p = none →
    trace_path cj st f true p = none := by
  intro f
  induction f with
  | zero =>
    intro p h
    cases hp : (st p).parent with
    | none => simp [spine, hp] at h
    | some q => simp [trace_path, hp]
  | succ f ih =>
    intro p h
    cases hp : (st p).parent with
    | none => simp [spine, hp] at h
    | some q =>
      simp only [spine, hp, Option.map_eq_none'] at h
      have := ih q h
      simp [trace_path, hp, this]

/-! `parentsAlong` and spines of explicitly written chains. -/

theorem lastCell_cons (u v : Pos) (t : List Pos) :
    lastCell u (v :: t) = lastCell v t := by
  rw [lastCell, lastCell, List.getLastD_cons]

theorem lastCell_concat (x : Pos) :
    ∀ (l : List Pos) (u : Pos), lastCell u (l ++ [x]) = x := by
  intro l
  induction l with
  | nil => intro u; rfl
  | cons v t ih =>
    intro u
    rw [List.cons_append, lastCell, List.getLastD_cons]
    exact ih v

theorem parentsAlong_congr (st₁ st₂ : PMap) :
    ∀ (rest : List Pos) (u : Pos), parentsAlong st₁ (u :: rest) →
    (∀ c ∈ rest, st₂ c = st₁ c) → parentsAlong st₂ (u :: rest) := by
  intro rest
  induction rest with
  | nil => intro u _ _; trivial
  | cons v rest' ih =>
    intro u h hag
    rcases h with ⟨hv, hrest⟩
    refine ⟨?_, ?_⟩
    · rw [hag v (by simp), hv]
    · exact ih v hrest fun c hc => hag c (by simp [hc])

theorem parentsAlong_snoc (st : PMap) :
    ∀ (l : List Pos) (u x : Pos),
    parentsAlong st (u :: (l ++ [x])) ↔
      parentsAlong st (u :: l) ∧ (st x).parent = some (lastCell u l) := by
  intro l
  induction l with
  | nil =>
    intro u x
    simp [parentsAlong, lastCell]
  | cons v t ih =>
    intro u x
    have base : parentsAlong st (u :: ((v :: t) ++ [x])) ↔
        (st v).parent = some u ∧ parentsAlong st (v :: (t ++ [x])) := by
      simp [parentsAlong]
    rw [base, ih v x, lastCell_cons]
    have base2 : parentsAlong st (u :: v :: t) ↔
        (st v).parent = some u ∧ parentsAlong st (v :: t) := by
      simp [parentsAlong]
    rw [base2]
    tauto

theorem spine_of_parentsAlong (st : PMap) (u : Pos) (hu : (st u).parent = none) :
    ∀ (cells : List Pos) (f : Nat), parentsAlong st (u :: cells) →
    cells.length ≤ f → spine st f (lastCell u cells) = some (u :: cells) := by
  intro cells
  induction cells using List.reverseRecOn with
  | nil =>
    intro f _ _
    rw [lastCell, List.getLastD_nil]
    cases f with
    | zero => simp [spine, hu]
    | succ f => simp [spine, hu]
  | append_singleton cs x ih =>
    intro f hpar hlen
    rw [lastCell_concat]
    rcases (parentsAlong_snoc st cs u x).mp hpar with ⟨hpcs, hx⟩
    have hlx : (cs ++ [x]).length = cs.length + 1 := by simp
    obtain ⟨f₀, rfl⟩ : ∃ f₀, f = f₀ + 1 := ⟨f - 1, by omega⟩
    have hlen' : cs.length ≤ f₀ := by omega
    have hrec := ih f₀ hpcs hlen'
    simp [spine, hx, hrec]

/-! Chains written by `dls`: frame and parent structure. -/

theorem writeChain_frame (st : PMap) :
    ∀ (l : List Pos) (a p : Pos), p ∉ l → writeChain st a l p = st p := by
  intro l
  induction l with
  | nil => intro a p _; rfl
  | cons b t ih =>
    intro a p hp
    have hpb : p ≠ b := fun h => hp (h ▸ List.mem_cons_self b t)
    have hpt : p ∉ t := fun h => hp (List.mem_cons_of_mem b h)
    unfold writeChain
    rw [setParent_other _ _ _ _ hpb]
    exact ih b p hpt

theorem writeChain_parentsAlong (st : PMap) :
    ∀ (l : List Pos) (a : Pos), l.Nodup →
    parentsAlong (writeChain st a l) (a :: l) := by
  intro l
  induction l with
  | nil => intro a _; trivial
  | cons b t ih =>
    intro a hnd
    have hbt : b ∉ t := (List.nodup_cons.mp hnd).1
    have hnt : t.Nodup := (List.nodup_cons.mp hnd).2
    have hW : writeChain st a (b :: t) = setParent (writeChain st b t) b a := rfl
    refine ⟨?_, ?_⟩
    · rw [hW, setParent_self]
    · have hbase := ih b hnt
      rw [hW]
      exact parentsAlong_congr _ _ t b hbase
        (fun c hc => setParent_other _ _ _ _ (fun he => hbt (he ▸ hc)))

/-! Soundness of iddfs.py `dls`: a successful depth-limited search writes
exactly one parent chain of legal moves from the current cell to the goal. -/

theorem IsChain_congr (gr : Grid) (st st' : PMap) (hb : sameBlocked st st') :
    ∀ (l : List Pos) (a : Pos), IsChain gr st a l → IsChain gr st' a l := by
  intro l
  induction l with
  | nil => intro a _; trivial
  | cons b t ih =>
    intro a h
    rcases h with ⟨⟨hmem, hblock⟩, hrest⟩
    exact ⟨⟨hmem, by rw [← hb b]; exact hblock⟩, ih b hrest⟩

theorem dlsLoop_nil (limit : Nat) (f : Pos → List Pos → Nat → PMap → iddfs.DRes)
    (current : Pos) (visited : List Pos) (count : Nat) (st : PMap) :
    iddfs.dlsLoop limit f current [] visited count st = ⟨none, count, visited, st⟩ := rfl

theorem dlsLoop_cons_limit (limit : Nat) (f : Pos → List Pos → Nat → PMap → iddfs.DRes)
    (current n : Pos) (ns visited : List Pos) (count : Nat) (st : PMap)
    (h1 : limit ≤ count) :
    iddfs.dlsLoop limit f current (n :: ns) visited count st = ⟨none, count, visited, st⟩ := by
  simp only [iddfs.dlsLoop, if_pos h1]

theorem dlsLoop_cons_skip (limit : Nat) (f : Pos → List Pos → Nat → PMap → iddfs.DRes)
    (current n : Pos) (ns visited : List Pos) (count : Nat) (st : PMap)
    (h1 : ¬ limit ≤ count) (h2 : (st n).blocked = true ∨ n ∈ visited) :
    iddfs.dlsLoop limit f current (n :: ns) visited count st =
      iddfs.dlsLoop limit f current ns visited count st := by
  simp only [iddfs.dlsLoop, if_neg h1, if_pos h2]

theorem dlsLoop_cons_some (limit : Nat) (f : Pos → List Pos → Nat → PMap → iddfs.DRes)
    (current n : Pos) (ns visited : List Pos) (count : Nat) (st : PMap) (gl : Pos)
    (h1 : ¬ limit ≤ count) (h2 : ¬ ((st n).blocked = true ∨ n ∈ visited))
    (hr : (f n (n :: visited) (count + 1) st).goal = some gl) :
    iddfs.dlsLoop limit f current (n :: ns) visited count st =
      ⟨some gl, (f n (n :: visited) (count + 1) st).count,
        (f n (n :: visited) (count + 1) st).visited,
        setParent (f n (n :: visited) (count + 1) st).st n current⟩ := by
  simp only [iddfs.dlsLoop, if_neg h1, if_neg h2]
  rw [hr]

theorem dlsLoop_cons_none (limit : Nat) (f : Pos → List Pos → Nat → PMap → iddfs.DRes)
    (current n : Pos) (ns visited : List Pos) (count : Nat) (st : PMap)
    (h1 : ¬ limit ≤ count) (h2 : ¬ ((st n).blocked = true ∨ n ∈ visited))
    (hr : (f n (n :: visited) (count + 1) st).goal = none) :
    iddfs.dlsLoop limit f current (n :: ns) visited count st =
      iddfs.dlsLoop limit f current ns
        ((f n (n :: visited) (count + 1) st).visited.erase n)
        (f n (n :: visited) (count + 1) st).count
        (f n (n :: visited) (count + 1) st).st := by
  simp only [iddfs.dlsLoop, if_neg h1, if_neg h2]
  rw [hr]

theorem dls_zero (gr : Grid) (goals : List Pos) (limit : Nat)
    (current : Pos) (visited : List Pos) (count : Nat) (st : PMap) :
    iddfs.dls gr goals limit 0 current visited count st =
      if current ∈ goals then ⟨some current, count, visited, st⟩
      else ⟨none, count, visited, st⟩ := rfl

theorem dls_succ_goal (gr : Grid) (goals : List Pos) (limit : Nat) (d : Nat)
    (current : Pos) (visited : List Pos) (count : Nat) (st : PMap)
    (hc : current ∈ goals) :
    iddfs.dls gr goals limit (d + 1) current visited count st =
      ⟨some current, count, visited, st⟩ := by
  simp only [iddfs.dls, if_pos hc]

theorem dls_succ_nogoal (gr : Grid) (goals : List Pos) (limit : Nat) (d : Nat)
    (current : Pos) (visited : List Pos) (count : Nat) (st : PMap)
    (hc : current ∉ goals) :
    iddfs.dls gr goals limit (d + 1) current visited count st =
      iddfs.dlsLoop limit (iddfs.dls gr goals limit d) current
        (gr.get_neighbors current false) visited count st := by
  simp only [iddfs.dls, if_neg hc]

theorem dlsLoop_fail_frame (limit : Nat) (f : Pos → List Pos → Nat → PMap → iddfs.DRes)
    (current : Pos)
    (hf : ∀ cur vis cnt st, (f cur vis cnt st).goal = none →
      (f cur vis cnt st).st = st ∧ (f cur vis cnt st).visited = vis) :
    ∀ (ns visited : List Pos) (count : Nat) (st : PMap),
    (iddfs.dlsLoop limit f current ns visited count st).goal = none →
    (iddfs.dlsLoop limit f current ns visited count st).st = st ∧
    (iddfs.dlsLoop limit f current ns visited count st).visited = visited := by
  intro ns
  induction ns with
  | nil => intro visited count st _; rw [dlsLoop_nil]; exact ⟨rfl, rfl⟩
  | cons n ns ih =>
    intro visited count st hg
    by_cases h1 : limit ≤ count
    · rw [dlsLoop_cons_limit limit f current n ns visited count st h1]
      exact ⟨rfl, rfl⟩
    · by_cases h2 : (st n).blocked = true ∨ n ∈ visited
      · rw [dlsLoop_cons_skip limit f current n ns visited count st h1 h2] at hg ⊢
        exact ih visited count st hg
      · cases hr : (f n (n :: visited) (count + 1) st).goal with
        | some gl =>
          rw [dlsLoop_cons_some limit f current n ns visited count st gl h1 h2 hr] at hg
          simp at hg
        | none =>
          rw [dlsLoop_cons_none limit f current n ns visited count st h1 h2 hr] at hg ⊢
          rcases hf n (n :: visited) (count + 1) st hr with ⟨hst, hvis⟩
          rw [hst, hvis, List.erase_cons_head] at hg ⊢
          exact ih visited ((f n (n :: visited) (count + 1) st).count) st hg

theorem dls_fail_frame (gr : Grid) (goals : List Pos) (limit : Nat) :
    ∀ (d : Nat) (current : Pos) (visited : List Pos) (count : Nat) (st : PMap),
    (iddfs.dls gr goals limit d current visited count st).goal = none →
    (iddfs.dls gr goals limit d current visited count st).st = st ∧
    (iddfs.dls gr goals limit d current visited count st).visited = visited := by
  intro d
  induction d with
  | zero =>
    intro current visited count st hg
    rw [dls_zero] at hg ⊢
    by_cases hc : current ∈ goals
    · simp [hc] at hg
    · rw [if_neg hc]
      exact ⟨rfl, rfl⟩
  | succ d ih =>
    intro current visited count st hg
    by_cases hc : current ∈ goals
    · rw [dls_succ_goal gr goals limit d current visited count st hc] at hg
      simp at hg
    · rw [dls_succ_nogoal gr goals limit d current visited count st hc] at hg ⊢
      exact dlsLoop_fail_frame limit _ current (fun cur vis cnt st hgg => ih cur vis cnt st hgg)
        _ visited count st hg

theorem dlsLoop_count (limit : Nat) (f : Pos → List Pos → Nat → PMap → iddfs.DRes)
    (current : Pos)
    (hf : ∀ cur vis cnt st, cnt ≤ limit → (f cur vis cnt st).count ≤ limit) :
    ∀ (ns visited : List Pos) (count : Nat) (st : PMap), count ≤ limit →
    (iddfs.dlsLoop limit f current ns visited count st).count ≤ limit := by
  intro ns
  induction ns with
  | nil => intro visited count st hc; rw [dlsLoop_nil]; exact hc
  | cons n ns ih =>
    intro visited count st hc
    by_cases h1 : limit ≤ count
    · rw [dlsLoop_cons_limit limit f current n ns visited count st h1]
      exact hc
    · by_cases h2 : (st n).blocked = true ∨ n ∈ visited
      · rw [dlsLoop_cons_skip limit f current n ns visited count st h1 h2]
        exact ih visited count st hc
      · have hc1 : count + 1 ≤ limit := by omega
        have hrc := hf n (n :: visited) (count + 1) st hc1
        cases hr : (f n (n :: visited) (count + 1) st).goal with
        | some gl =>
          rw [dlsLoop_cons_some limit f current n ns visited count st gl h1 h2 hr]
          exact hrc
        | none =>
          rw [dlsLoop_cons_none limit f current n ns visited count st h1 h2 hr]
          exact ih _ _ _ hrc

theorem dls_count (gr : Grid) (goals : List Pos) (limit : Nat) :
    ∀ (d : Nat) (current : Pos) (visited : List Pos) (count : Nat) (st : PMap),
    count ≤ limit →
    (iddfs.dls gr goals limit d current visited count st).count ≤ limit := by
  intro d
  induction d with
  | zero =>
    intro current visited count st hc
    rw [dls_zero]
    by_cases hg : current ∈ goals
    · rw [if_pos hg]; exact hc
    · rw [if_neg hg]; exact hc
  | succ d ih =>
    intro current visited count st hc
    by_cases hg : current ∈ goals
    · rw [dls_succ_goal gr goals limit d current visited count st hg]
      exact hc
    · rw [dls_succ_nogoal gr goals limit d current visited count st hg]
      exact dlsLoop_count limit _ current (fun cur vis cnt st h => ih cur vis cnt st h)
        _ visited count st hc

theorem dlsLoop_sound (gr : Grid) (goals : List Pos) (limit : Nat)
    (f : Pos → List Pos → Nat → PMap → iddfs.DRes) (current : Pos)
    (hf_sound : ∀ cur vis cnt st gl, (f cur vis cnt st).goal = some gl → cur ∈ vis →
      ∃ l, IsChain gr st cur l ∧ gl = lastCell cur l ∧ gl ∈ goals ∧ l.Nodup ∧
        (∀ c ∈ l, c ∉ vis) ∧ (f cur vis cnt st).st = writeChain st cur l)
    (hf_fail : ∀ cur vis cnt st, (f cur vis cnt st).goal = none →
      (f cur vis cnt st).st = st ∧ (f cur vis cnt st).visited = vis) :
    ∀ (ns visited : List Pos) (count : Nat) (st : PMap) (gl : Pos),
    current ∈ visited → (∀ n ∈ ns, n ∈ gr.get_neighbors current false) →
    (iddfs.dlsLoop limit f current ns visited count st).goal = some gl →
    ∃ l, IsChain gr st current l ∧ gl = lastCell current l ∧ gl ∈ goals ∧ l.Nodup ∧
      (∀ c ∈ l, c ∉ visited) ∧
      (iddfs.dlsLoop limit f current ns visited count st).st = writeChain st current l := by
  intro ns
  induction ns with
  | nil =>
    intro visited count st gl _ _ hg
    rw [dlsLoop_nil] at hg
    simp at hg
  | cons n ns ih =>
    intro visited count st gl hcur hns hg
    by_cases h1 : limit ≤ count
    · rw [dlsLoop_cons_limit limit f current n ns visited count st h1] at hg
      simp at hg
    · by_cases h2 : (st n).blocked = true ∨ n ∈ visited
      · rw [dlsLoop_cons_skip limit f current n ns visited count st h1 h2] at hg ⊢
        exact ih visited count st gl hcur (fun m hm => hns m (List.mem_cons_of_mem n hm)) hg
      · push_neg at h2
        rcases h2 with ⟨hnb, hnv⟩
        have h2' : ¬ ((st n).blocked = true ∨ n ∈ visited) := by
          push_neg
          exact ⟨hnb, hnv⟩
        cases hr : (f n (n :: visited) (count + 1) st).goal with
        | some gl0 =>
          rw [dlsLoop_cons_some limit f current n ns visited count st gl0 h1 h2' hr] at hg ⊢
          simp only [Option.some.injEq] at hg
          subst hg
          rcases hf_sound n (n :: visited) (count + 1) st gl0 hr
              (List.mem_cons_self n visited) with
            ⟨l0, hchain, hlast, hgoals, hnd, hvis, hst⟩
          refine ⟨n :: l0, ?_, ?_, hgoals, ?_, ?_, ?_⟩
          · exact ⟨⟨hns n (List.mem_cons_self n ns), by simpa using hnb⟩, hchain⟩
          · rw [lastCell_cons]; exact hlast
          · refine List.nodup_cons.mpr ⟨?_, hnd⟩
            intro hnl
            exact hvis n hnl (List.mem_cons_self n visited)
          · intro c hc
            rcases List.mem_cons.mp hc with rfl | hc
            · exact hnv
            · exact fun hcv => hvis c hc (List.mem_cons_of_mem n hcv)
          · show setParent (f n (n :: visited) (count + 1) st).st n current =
              writeChain st current (n :: l0)
            rw [hst]
            rfl
        | none =>
          rw [dlsLoop_cons_none limit f current n ns visited count st h1 h2' hr] at hg ⊢
          rcases hf_fail n (n :: visited) (count + 1) st hr with ⟨hst, hvis⟩
          rw [hst, hvis, List.erase_cons_head] at hg ⊢
          exact ih visited _ st gl hcur (fun m hm => hns m (List.mem_cons_of_mem n hm)) hg

theorem dls_sound (gr : Grid) (goals : List Pos) (limit : Nat) :
    ∀ (d : Nat) (current : Pos) (visited : List Pos) (count : Nat) (st : PMap) (gl : Pos),
    (iddfs.dls gr goals limit d current visited count st).goal = some gl →
    current ∈ visited →
    ∃ l, IsChain gr st current l ∧ gl = lastCell current l ∧ gl ∈ goals ∧ l.Nodup ∧
      (∀ c ∈ l, c ∉ visited) ∧
      (iddfs.dls gr goals limit d current visited count st).st = writeChain st current l := by
  intro d
  induction d with
  | zero =>
    intro current visited count st gl hg _
    rw [dls_zero] at hg ⊢
    by_cases hc : current ∈ goals
    · rw [if_pos hc] at hg ⊢
      simp only [Option.some.injEq] at hg
      subst hg
      exact ⟨[], trivial, rfl, hc, List.nodup_nil, by simp, rfl⟩
    · rw [if_neg hc] at hg
      simp at hg
  | succ d ih =>
    intro current visited count st gl hg hcur
    by_cases hc : current ∈ goals
    · rw [dls_succ_goal gr goals limit d current visited count st hc] at hg ⊢
      simp only [Option.some.injEq] at hg
      subst hg
      exact ⟨[], trivial, rfl, hc, List.nodup_nil, by simp, rfl⟩
    · rw [dls_succ_nogoal gr goals limit d current visited count st hc] at hg ⊢
      exact dlsLoop_sound gr goals limit _ current
        (fun cur vis cnt st gl0 hgg hmm => ih cur vis cnt st gl0 hgg hmm)
        (fun cur vis cnt st hgg => dls_fail_frame gr goals limit d cur vis cnt st hgg)
        _ visited count st gl hcur (fun n hn => hn) hg

/-! The iddfs depth loop and the structure of a successful `iddfs.search`. -/

theorem depths_nil (gr : Grid) (goals : List Pos) (limit : Nat) (start : Pos)
    (count : Nat) (st : PMap) :
    iddfs.depths gr goals limit start [] count st = (none, count, st) := rfl

theorem depths_cons_some (gr : Grid) (goals : List Pos) (limit : Nat) (start : Pos)
    (d : Nat) (rest : List Nat) (count : Nat) (st : PMap) (gl : Pos)
    (hr : (iddfs.dls gr goals limit d start [start] count st).goal = some gl) :
    iddfs.depths gr goals limit start (d :: rest) count st =
      (some gl, (iddfs.dls gr goals limit d start [start] count st).count,
        (iddfs.dls gr goals limit d start [start] count st).st) := by
  simp only [iddfs.depths]
  rw [hr]

theorem depths_cons_none (gr : Grid) (goals : List Pos) (limit : Nat) (start : Pos)
    (d : Nat) (rest : List Nat) (count : Nat) (st : PMap)
    (hr : (iddfs.dls gr goals limit d start [start] count st).goal = none) :
    iddfs.depths gr goals limit start (d :: rest) count st =
      iddfs.depths gr goals limit start rest
        (iddfs.dls gr goals limit d start [start] count st).count
        (iddfs.dls gr goals limit d start [start] count st).st := by
  simp only [iddfs.depths]
  rw [hr]

theorem depths_fail_frame (gr : Grid) (goals : List Pos) (limit : Nat) (start : Pos) :
    ∀ (ds : List Nat) (count : Nat) (st : PMap) (count' : Nat) (st' : PMap),
    iddfs.depths gr goals limit start ds count st = (none, count', st') → st' = st := by
  intro ds
  induction ds with
  | nil =>
    intro count st count' st' h
    rw [depths_nil] at h
    have := congrArg (fun x => x.2.2) h
    simpa using this.symm
  | cons d rest ih =>
    intro count st count' st' h
    cases hr : (iddfs.dls gr goals limit d start [start] count st).goal with
    | some gl =>
      rw [depths_cons_some gr goals limit start d rest count st gl hr] at h
      simp at h
    | none =>
      rw [depths_cons_none gr goals limit start d rest count st hr] at h
      have hst := (dls_fail_frame gr goals limit d start [start] count st hr).1
      rw [hst] at h
      exact ih _ _ _ _ h

theorem depths_sound (gr : Grid) (goals : List Pos) (limit : Nat) (start : Pos) :
    ∀ (ds : List Nat) (count : Nat) (st : PMap) (gl : Pos) (count' : Nat) (st' : PMap),
    iddfs.depths gr goals limit start ds count st = (some gl, count', st') →
    ∃ l, IsChain gr st start l ∧ gl = lastCell start l ∧ gl ∈ goals ∧ l.Nodup ∧
      start ∉ l ∧ st' = writeChain st start l := by
  intro ds
  induction ds with
  | nil =>
    intro count st gl count' st' h
    rw [depths_nil] at h
    simp at h
  | cons d rest ih =>
    intro count st gl count' st' h
    cases hr : (iddfs.dls gr goals limit d start [start] count st).goal with
    | some gl0 =>
      rw [depths_cons_some gr goals limit start d rest count st gl0 hr] at h
      have h1 : gl0 = gl := by
        have := congrArg Prod.fst h
        simpa using this
      have h3 : (iddfs.dls gr goals limit d start [start] count st).st = st' := by
        have := congrArg (fun x => x.2.2) h
        simpa using this
      rw [h1] at hr
      rcases dls_sound gr goals limit d start [start] count st gl hr
          (List.mem_cons_self start []) with
        ⟨l, hchain, hlast, hgoals, hnd, hvis, hst⟩
      refine ⟨l, hchain, hlast, hgoals, hnd, ?_, ?_⟩
      · intro hmem
        exact hvis start hmem (List.mem_cons_self start [])
      · rw [← h3, hst]
    | none =>
      rw [depths_cons_none gr goals limit start d rest count st hr] at h
      have hst := (dls_fail_frame gr goals limit d start [start] count st hr).1
      rw [hst] at h
      exact ih _ _ _ _ _ h

theorem depths_count (gr : Grid) (goals : List Pos) (limit : Nat) (start : Pos) :
    ∀ (ds : List Nat) (count : Nat) (st : PMap), count ≤ limit →
    (iddfs.depths gr goals limit start ds count st).2.1 ≤ limit := by
  intro ds
  induction ds with
  | nil => intro count st hc; rw [depths_nil]; exact hc
  | cons d rest ih =>
    intro count st hc
    have hdc := dls_count gr goals limit d start [start] count st hc
    cases hr : (iddfs.dls gr goals limit d start [start] count st).goal with
    | some gl =>
      rw [depths_cons_some gr goals limit start d rest count st gl hr]
      exact hdc
    | none =>
      rw [depths_cons_none gr goals limit start d rest count st hr]
      exact ih _ _ hdc

theorem writeChain_blocked (st : PMap) :
    ∀ (l : List Pos) (a : Pos), sameBlocked st (writeChain st a l) := by
  intro l
  induction l with
  | nil => intro a p; rfl
  | cons b t ih =>
    intro a p
    have h1 := (setParent_fields (writeChain st b t) b a p).2.2
    have h2 := ih b p
    unfold writeChain
    rw [h1, ← h2]

theorem trace_path_root (cj : Bool) (st : PMap) (f : Nat) (bw : Bool) (p : Pos)
    (hp : (st p).parent = none) : trace_path cj st f bw p = some [] := by
  cases f <;> simp [trace_path, hp]

theorem iddfs_search_eq (tf : Nat) (a : Agent) (limit : Nat) (st0 : PMap) :
    iddfs.search tf a limit st0 =
      match iddfs.depths a.grid a.goals limit a.cell
          (List.range (a.grid.net_area (resetState st0) + 1)) 1 (resetState st0) with
      | (some gl, count, st') =>
        (trace_path a.can_jump st' tf true gl).map fun path =>
          (SingleRes.found path gl count, st')
      | (none, count, st') => some (SingleRes.fail count, st') := rfl

/-- A success dictionary returned by `iddfs.search` always comes from a parent
chain of legal moves written by `dls`: the goal is the end of a duplicate-free
chain of unblocked in-bounds single steps from the start, and the returned path
is exactly the token list of that chain. -/
theorem iddfs_search_success (tf : Nat) (a : Agent) (limit : Nat) (st0 : PMap)
    (path : List Tok) (gl : Pos) (cnt : Nat) (st' : PMap)
    (h : iddfs.search tf a limit st0 = some (SingleRes.found path gl cnt, st')) :
    ∃ l, IsChain a.grid st0 a.cell l ∧ gl = lastCell a.cell l ∧ gl ∈ a.goals ∧
      l.Nodup ∧ path = tokensOf a.can_jump (a.cell :: l) := by
  rcases hD : iddfs.depths a.grid a.goals limit a.cell
      (List.range (a.grid.net_area (resetState st0) + 1)) 1 (resetState st0) with
    ⟨og, cnt2, st2⟩
  rw [iddfs_search_eq, hD] at h
  cases og with
  | none =>
    have h' : some (SingleRes.fail cnt2, st2) =
        some (SingleRes.found path gl cnt, st') := h
    simp at h'
  | some gl0 =>
    have h' : Option.map (fun path => (SingleRes.found path gl0 cnt2, st2))
        (trace_path a.can_jump st2 tf true gl0) =
        some (SingleRes.found path gl cnt, st') := h
    cases htr : trace_path a.can_jump st2 tf true gl0 with
    | none => rw [htr] at h'; simp at h'
    | some p0 =>
      rw [htr] at h'
      simp only [Option.map_some', Option.some.injEq, Prod.mk.injEq,
        SingleRes.found.injEq] at h'
      rcases h' with ⟨⟨hp0, hgl0, hcnt⟩, hst2⟩
      rw [hgl0, hcnt, hst2] at hD
      rw [hgl0, hst2, hp0] at htr
      rcases depths_sound a.grid a.goals limit a.cell _ 1 (resetState st0) gl cnt st' hD with
        ⟨l, hchain, hlast, hgoals, hnd, hsl, hw⟩
      have hpar : parentsAlong st' (a.cell :: l) := by
        rw [hw]
        exact writeChain_parentsAlong (resetState st0) l a.cell hnd
      have hroot : (st' a.cell).parent = none := by
        rw [hw, writeChain_frame (resetState st0) l a.cell a.cell hsl]
        rfl
      have hsp1 : spine st' l.length (lastCell a.cell l) = some (a.cell :: l) :=
        spine_of_parentsAlong st' a.cell hroot l l.length hpar le_rfl
      cases hsp2 : spine st' tf gl with
      | none =>
        have := trace_eq_spine_none a.can_jump st' tf gl hsp2
        rw [this] at htr
        exact absurd htr (by simp)
      | some cells =>
        have htr2 := trace_eq_spine_some a.can_jump st' tf gl cells hsp2
        rw [htr2] at htr
        have hpath : path = tokensOf a.can_jump cells := by
          simpa using htr.symm
        have hM1 : spine st' (max tf l.length) gl = some cells :=
          spine_mono st' tf (max tf l.length) gl cells (le_max_left _ _) hsp2
        have hM2 : spine st' (max tf l.length) gl = some (a.cell :: l) := by
          rw [hlast]
          exact spine_mono st' l.length (max tf l.length) _ _ (le_max_right _ _) hsp1
        have hcells : cells = a.cell :: l := by
          rw [hM1] at hM2
          simpa using hM2
        refine ⟨l, ?_, hlast, hgoals, hnd, ?_⟩
        · exact IsChain_congr a.grid (resetState st0) st0 (fun p => rfl) l a.cell hchain
        · rw [hpath, hcells]

/-- The accumulated count returned by `iddfs.search` (success or failure) never
exceeds a positive ceiling. -/
theorem iddfs_search_count (tf : Nat) (a : Agent) (limit : Nat) (st0 : PMap)
    (hlim : 1 ≤ limit) :
    ∀ (r : SingleRes) (st' : PMap), iddfs.search tf a limit st0 = some (r, st') →
    r.count ≤ limit := by
  rcases hD : iddfs.depths a.grid a.goals limit a.cell
      (List.range (a.grid.net_area (resetState st0) + 1)) 1 (resetState st0) with
    ⟨og, cnt2, st2⟩
  have hcnt : cnt2 ≤ limit := by
    have := depths_count a.grid a.goals limit a.cell
      (List.range (a.grid.net_area (resetState st0) + 1)) 1 (resetState st0) hlim
    rw [hD] at this
    simpa using this
  intro r st' h
  rw [iddfs_search_eq, hD] at h
  cases og with
  | none =>
    have h' : some (SingleRes.fail cnt2, st2) = some (r, st') := h
    simp only [Option.some.injEq, Prod.mk.injEq] at h'
    rw [← h'.1]
    exact hcnt
  | some gl =>
    have h' : Option.map (fun path => (SingleRes.found path gl cnt2, st2))
        (trace_path a.can_jump st2 tf true gl) = some (r, st') := h
    cases htr : trace_path a.can_jump st2 tf true gl with
    | none => rw [htr] at h'; simp at h'
    | some p0 =>
      rw [htr] at h'
      simp only [Option.map_some', Option.some.injEq, Prod.mk.injEq] at h'
      rw [← h'.1]
      exact hcnt

/-- The start-is-goal short circuit of `iddfs.search`: depth 0 succeeds at once
with an empty path and count 1, on the reset state. -/
theorem iddfs_search_start_goal (tf : Nat) (a : Agent) (limit : Nat) (st0 : PMap)
    (hg : a.cell ∈ a.goals) :
    iddfs.search tf a limit st0 =
      some (SingleRes.found [] a.cell 1, resetState st0) := by
  rw [iddfs_search_eq]
  rw [List.range_succ_eq_map]
  have hr : (iddfs.dls a.grid a.goals limit 0 a.cell [a.cell] 1 (resetState st0)).goal =
      some a.cell := by
    rw [dls_zero, if_pos hg]
  rw [depths_cons_some a.grid a.goals limit a.cell 0 _ 1 (resetState st0) a.cell hr]
  have h2 : iddfs.dls a.grid a.goals limit 0 a.cell [a.cell] 1 (resetState st0) =
      ⟨some a.cell, 1, [a.cell], resetState st0⟩ := by
    rw [dls_zero, if_pos hg]
  rw [h2]
  show Option.map (fun path => (SingleRes.found path a.cell 1, resetState st0))
      (trace_path a.can_jump (resetState st0) tf true a.cell) =
    some (SingleRes.found [] a.cell 1, resetState st0)
  rw [trace_path_root a.can_jump (resetState st0) tf true a.cell rfl]
  rfl

/-- `iddfs.search` depends on the incoming cell state only through the blocked
flags: it calls `Grid.reset` first. -/
theorem iddfs_search_congr (tf : Nat) (a : Agent) (limit : Nat) (st0 st1 : PMap)
    (hb : sameBlocked st0 st1) :
    iddfs.search tf a limit st0 = iddfs.search tf a limit st1 := by
  unfold iddfs.search
  rw [resetState_congr hb]

/-- `iddfs.search_all` depends on the incoming cell state only through the
blocked flags: it calls `Grid.reset` first. -/
theorem iddfs_search_all_congr (tf : Nat) (a : Agent) (limit : Nat) (st0 st1 : PMap)
    (hb : sameBlocked st0 st1) :
    iddfs.search_all tf a limit st0 = iddfs.search_all tf a limit st1 := by
  unfold iddfs.search_all
  rw [resetState_congr hb]

/-- `iddfs.search` never changes any blocked flag. -/
theorem iddfs_search_blocked (tf : Nat) (a : Agent) (limit : Nat) (st0 : PMap)
    (r : SingleRes) (st' : PMap) (h : iddfs.search tf a limit st0 = some (r, st')) :
    sameBlocked st0 st' := by
  rcases hD : iddfs.depths a.grid a.goals limit a.cell
      (List.range (a.grid.net_area (resetState st0) + 1)) 1 (resetState st0) with
    ⟨og, cnt2, st2⟩
  rw [iddfs_search_eq, hD] at h
  cases og with
  | none =>
    have hst2 : st2 = resetState st0 :=
      depths_fail_frame a.grid a.goals limit a.cell _ 1 (resetState st0) cnt2 st2 hD
    have h' : some (SingleRes.fail cnt2, st2) = some (r, st') := h
    simp only [Option.some.injEq, Prod.mk.injEq] at h'
    rw [← h'.2, hst2]
    intro p
    rfl
  | some gl =>
    have h' : Option.map (fun path => (SingleRes.found path gl cnt2, st2))
        (trace_path a.can_jump st2 tf true gl) = some (r, st') := h
    cases htr : trace_path a.can_jump st2 tf true gl with
    | none => rw [htr] at h'; simp at h'
    | some p0 =>
      rw [htr] at h'
      simp only [Option.map_some', Option.some.injEq, Prod.mk.injEq] at h'
      rcases depths_sound a.grid a.goals limit a.cell _ 1 (resetState st0) gl cnt2 st2 hD with
        ⟨l, _, _, _, _, _, hw⟩
      rw [← h'.2, hw]
      intro p
      exact (writeChain_blocked (resetState st0) l a.cell p)

/-! The reachability closure: a duplicate-free chain of legal moves always
lands inside `reachSet`. -/

theorem foldl_subset_of_step (g : List Pos → Pos → List Pos)
    (hg : ∀ acc x, acc ⊆ g acc x) :
    ∀ (l : List Pos) (acc : List Pos), acc ⊆ l.foldl g acc := by
  intro l
  induction l with
  | nil => intro acc x h; exact h
  | cons y t ih => intro acc x hx; exact ih (g acc y) (hg acc y hx)

theorem foldl_mem_of_processed (g : List Pos → Pos → List Pos)
    (hg : ∀ acc x, acc ⊆ g acc x) (x n : Pos) (hx : ∀ acc, n ∈ g acc x) :
    ∀ (l : List Pos) (acc : List Pos), x ∈ l → n ∈ l.foldl g acc := by
  intro l
  induction l with
  | nil => intro acc h; exact absurd h (List.not_mem_nil x)
  | cons y t ih =>
    intro acc hmem
    rcases List.mem_cons.mp hmem with rfl | hmem
    · exact foldl_subset_of_step g hg t (g acc x) (hx acc)
    · exact ih (g acc y) hmem

theorem subset_addNew (gr : Grid) (st : PMap) :
    ∀ (acc : List Pos) (p : Pos), acc ⊆ addNew gr st acc p := by
  intro acc p
  unfold addNew
  apply foldl_subset_of_step
  intro a n
  by_cases h : (st n).blocked = false ∧ n ∉ a
  · rw [if_pos h]; exact fun x hx => List.mem_append_left _ hx
  · rw [if_neg h]; exact fun x hx => hx

theorem mem_addNew (gr : Grid) (st : PMap) (p n : Pos) (acc : List Pos)
    (hn : n ∈ gr.get_neighbors p false) (hb : (st n).blocked = false) :
    n ∈ addNew gr st acc p := by
  unfold addNew
  refine foldl_mem_of_processed _ ?_ n n ?_ _ acc hn
  · intro a m
    by_cases h : (st m).blocked = false ∧ m ∉ a
    · rw [if_pos h]; exact fun x hx => List.mem_append_left _ hx
    · rw [if_neg h]; exact fun x hx => hx
  · intro a
    by_cases hna : n ∈ a
    · by_cases h : (st n).blocked = false ∧ n ∉ a
      · rw [if_pos h]; exact List.mem_append_left _ hna
      · rw [if_neg h]; exact hna
    · rw [if_pos ⟨hb, hna⟩]
      exact List.mem_append_right _ (List.mem_singleton_self n)

theorem mem_reachStep (gr : Grid) (st : PMap) (acc : List Pos) (p n : Pos)
    (hp : p ∈ acc) (hstep : Step gr st p n) : n ∈ reachStep gr st acc := by
  unfold reachStep
  exact foldl_mem_of_processed (addNew gr st) (subset_addNew gr st) p n
    (fun acc' => mem_addNew gr st p n acc' hstep.1 hstep.2) acc acc hp

theorem reachIter_subset (gr : Grid) (st : PMap) (start : Pos) :
    ∀ (i j : Nat), i ≤ j →
    (reachStep gr st)^[i] [start] ⊆ (reachStep gr st)^[j] [start] := by
  intro i j
  induction j with
  | zero =>
    intro hij
    have : i = 0 := by omega
    subst this
    exact fun x h => h
  | succ j ih =>
    intro hij
    by_cases h : i = j + 1
    · subst h; exact fun x hx => hx
    · have h1 : i ≤ j := by omega
      have h2 : (reachStep gr st)^[j] [start] ⊆ (reachStep gr st)^[j + 1] [start] := by
        rw [Function.iterate_succ_apply']
        exact foldl_subset_of_step (addNew gr st) (subset_addNew gr st) _ _
      exact fun x hx => h2 (ih h1 hx)

theorem IsChain_snoc (gr : Grid) (st : PMap) :
    ∀ (l : List Pos) (a x : Pos),
    IsChain gr st a (l ++ [x]) ↔ IsChain gr st a l ∧ Step gr st (lastCell a l) x := by
  intro l
  induction l with
  | nil =>
    intro a x
    constructor
    · rintro ⟨hs, _⟩; exact ⟨trivial, hs⟩
    · rintro ⟨_, hs⟩; exact ⟨hs, trivial⟩
  | cons b t ih =>
    intro a x
    rw [List.cons_append]
    constructor
    · rintro ⟨hab, hrest⟩
      rcases (ih b x).mp hrest with ⟨hc, hs⟩
      exact ⟨⟨hab, hc⟩, by rw [lastCell_cons]; exact hs⟩
    · rintro ⟨⟨hab, hc⟩, hs⟩
      rw [lastCell_cons] at hs
      exact ⟨hab, (ih b x).mpr ⟨hc, hs⟩⟩

theorem chain_reach (gr : Grid) (st : PMap) (start : Pos) :
    ∀ (l : List Pos), IsChain gr st start l →
    lastCell start l ∈ (reachStep gr st)^[l.length] [start] := by
  intro l
  induction l using List.reverseRecOn with
  | nil =>
    intro _
    rw [lastCell, List.getLastD_nil]
    simp
  | append_singleton cs x ih =>
    intro hchain
    rcases (IsChain_snoc gr st cs start x).mp hchain with ⟨hc, hs⟩
    rw [lastCell_concat]
    have hlen : (cs ++ [x]).length = cs.length + 1 := by simp
    rw [hlen, Function.iterate_succ_apply']
    exact mem_reachStep gr st _ (lastCell start cs) x (ih hc) hs

theorem chain_cells_valid (gr : Grid) (st : PMap) :
    ∀ (l : List Pos) (a : Pos), IsChain gr st a l → ∀ c ∈ l, gr.validP c := by
  intro l
  induction l with
  | nil => intro a _ c hc; exact absurd hc (List.not_mem_nil c)
  | cons b t ih =>
    intro a h c hc
    rcases h with ⟨⟨hmem, _⟩, hrest⟩
    rcases List.mem_cons.mp hc with rfl | hc
    · rcases mem_get_neighbors_false gr a c hmem with ⟨_, _, _, hv⟩
      exact hv
    · exact ih b hrest c hc

theorem mem_allCells (gr : Grid) (p : Pos) : p ∈ gr.allCells ↔ gr.validP p := by
  unfold Grid.allCells
  simp only [List.mem_flatMap, List.mem_map, List.mem_range]
  constructor
  · rintro ⟨y, hy, x, hx, hp⟩
    subst hp
    unfold Grid.validP Grid.is_valid
    simp only [Int.ofNat_eq_coe]
    omega
  · intro h
    unfold Grid.validP Grid.is_valid at h
    rcases h with ⟨h1, h2, h3, h4⟩
    refine ⟨p.2.toNat, by omega, p.1.toNat, by omega, ?_⟩
    have e1 : (Int.ofNat p.1.toNat) = p.1 := by
      rw [Int.ofNat_eq_coe]
      exact Int.toNat_of_nonneg h1
    have e2 : (Int.ofNat p.2.toNat) = p.2 := by
      rw [Int.ofNat_eq_coe]
      exact Int.toNat_of_nonneg h3
    rw [Prod.ext_iff]
    exact ⟨e1, e2⟩

theorem flatMap_const_length (f : Nat → List Pos) (w : Nat)
    (hf : ∀ y, (f y).length = w) :
    ∀ n, ((List.range n).flatMap f).length = n * w := by
  intro n
  induction n with
  | zero => simp
  | succ n ih =>
    rw [List.range_succ, List.flatMap_append, List.length_append, ih]
    simp [hf n]
    ring

theorem allCells_length (gr : Grid) : gr.allCells.length = gr.height * gr.width := by
  unfold Grid.allCells
  exact flatMap_const_length _ gr.width (fun y => by simp) gr.height

theorem reach_of_chain (gr : Grid) (st : PMap) (start : Pos) (l : List Pos)
    (hchain : IsChain gr st start l) (hnd : l.Nodup) :
    lastCell start l ∈ reachSet gr st start := by
  have h1 := chain_reach gr st start l hchain
  have hsub : l ⊆ gr.allCells := fun c hc =>
    (mem_allCells gr c).mpr (chain_cells_valid gr st l start hchain c hc)
  have hlen : l.length ≤ gr.height * gr.width := by
    have := (hnd.subperm hsub).length_le
    rw [allCells_length] at this
    exact this
  exact reachIter_subset gr st start l.length (gr.height * gr.width) hlen h1

/-- When no goal is inside the reachability closure of the start, `iddfs.search`
returns the bare failure count. -/
theorem iddfs_search_unreachable (tf : Nat) (a : Agent) (limit : Nat) (st0 : PMap)
    (hunr : ∀ gl ∈ a.goals, gl ∉ reachSet a.grid st0 a.cell) :
    ∃ c st', iddfs.search tf a limit st0 = some (SingleRes.fail c, st') := by
  rcases hD : iddfs.depths a.grid a.goals limit a.cell
      (List.range (a.grid.net_area (resetState st0) + 1)) 1 (resetState st0) with
    ⟨og, cnt2, st2⟩
  cases og with
  | some gl =>
    rcases depths_sound a.grid a.goals limit a.cell _ 1 (resetState st0) gl cnt2 st2 hD with
      ⟨l, hchain, hlast, hgoals, hnd, _, _⟩
    have hchain0 : IsChain a.grid st0 a.cell l :=
      IsChain_congr a.grid (resetState st0) st0 (fun p => rfl) l a.cell hchain
    have : gl ∈ reachSet a.grid st0 a.cell := by
      rw [hlast]
      exact reach_of_chain a.grid st0 a.cell l hchain0 hnd
    exact absurd this (hunr gl hgoals)
  | none =>
    refine ⟨cnt2, st2, ?_⟩
    rw [iddfs_search_eq, hD]

/-! Beam search: loop equations and helper lemmas. -/

theorem minByF_mem (st : PMap) :
    ∀ (xs : List Pos) (x : Pos), beam.minByF st x xs ∈ x :: xs := by
  intro xs
  induction xs with
  | nil => intro x; exact List.mem_cons_self x []
  | cons y t ih =>
    intro x
    show beam.minByF st (if beam.fval st y < beam.fval st x then y else x) t ∈ x :: y :: t
    have := ih (if beam.fval st y < beam.fval st x then y else x)
    rcases List.mem_cons.mp this with h | h
    · rw [h]
      by_cases hc : beam.fval st y < beam.fval st x
      · rw [if_pos hc]; exact List.mem_cons_of_mem x (List.mem_cons_self y t)
      · rw [if_neg hc]; exact List.mem_cons_self x (y :: t)
    · exact List.mem_cons_of_mem x (List.mem_cons_of_mem y h)

theorem insertByF_perm (st : PMap) (x : Pos) :
    ∀ (l : List Pos), List.Perm (beam.insertByF st x l) (x :: l) := by
  intro l
  induction l with
  | nil => exact List.Perm.refl _
  | cons y t ih =>
    show List.Perm (if beam.fval st y ≤ beam.fval st x then y :: beam.insertByF st x t
      else x :: y :: t) (x :: y :: t)
    by_cases hc : beam.fval st y ≤ beam.fval st x
    · rw [if_pos hc]
      exact ((ih.cons y).trans (List.Perm.swap x y t)).symm.symm
    · rw [if_neg hc]

theorem sortByF_foldl_perm (st : PMap) :
    ∀ (l acc : List Pos),
    List.Perm (l.foldl (fun acc x => beam.insertByF st x acc) acc) (l ++ acc) := by
  intro l
  induction l with
  | nil => intro acc; simp
  | cons y t ih =>
    intro acc
    have h1 := ih (beam.insertByF st y acc)
    have h2 : List.Perm (t ++ beam.insertByF st y acc) (t ++ (y :: acc)) :=
      List.Perm.append_left t (insertByF_perm st y acc)
    have h3 : List.Perm (t ++ (y :: acc)) (y :: (t ++ acc)) := List.perm_middle
    exact (h1.trans h2).trans h3

theorem sortByF_perm (st : PMap) (l : List Pos) : List.Perm (beam.sortByF st l) l := by
  have := sortByF_foldl_perm st l []
  simpa [beam.sortByF] using this

theorem beamLoop_zero (gr : Grid) (goals : List Pos) (target : Pos) (bw : Nat)
    (cj : Bool) (tf : Nat) (opn closed : List Pos) (count : Nat) (st : PMap) :
    beam.loop gr goals target bw cj tf 0 opn closed count st = none := rfl

theorem beamLoop_empty (gr : Grid) (goals : List Pos) (target : Pos) (bw : Nat)
    (cj : Bool) (tf fuel : Nat) (closed : List Pos) (count : Nat) (st : PMap) :
    beam.loop gr goals target bw cj tf (fuel + 1) [] closed count st =
      some (SingleRes.fail count, st) := rfl

theorem beamLoop_cons_goal (gr : Grid) (goals : List Pos) (target : Pos) (bw : Nat)
    (cj : Bool) (tf fuel : Nat) (x : Pos) (xs closed : List Pos) (count : Nat) (st : PMap)
    (hg : beam.minByF st x xs ∈ goals) :
    beam.loop gr goals target bw cj tf (fuel + 1) (x :: xs) closed count st =
      (trace_path cj st tf true (beam.minByF st x xs)).map fun path =>
        (SingleRes.found path (beam.minByF st x xs) count, st) := by
  simp only [beam.loop]
  rw [if_pos hg]

theorem beamLoop_cons_expand (gr : Grid) (goals : List Pos) (target : Pos) (bw : Nat)
    (cj : Bool) (tf fuel : Nat) (x : Pos) (xs closed : List Pos) (count : Nat) (st : PMap)
    (hg : beam.minByF st x xs ∉ goals) :
    beam.loop gr goals target bw cj tf (fuel + 1) (x :: xs) closed count st =
      beam.loop gr goals target bw cj tf fuel
        ((beam.sortByF
            (beam.expandState gr target (beam.minByF st x xs)
              (closed ++ [beam.minByF st x xs]) ((x :: xs).erase (beam.minByF st x xs))
              count st).2.2
            (beam.expandState gr target (beam.minByF st x xs)
              (closed ++ [beam.minByF st x xs]) ((x :: xs).erase (beam.minByF st x xs))
              count st).1).take bw)
        (closed ++ [beam.minByF st x xs])
        (beam.expandState gr target (beam.minByF st x xs)
          (closed ++ [beam.minByF st x xs]) ((x :: xs).erase (beam.minByF st x xs))
          count st).2.1
        (beam.expandState gr target (beam.minByF st x xs)
          (closed ++ [beam.minByF st x xs]) ((x :: xs).erase (beam.minByF st x xs))
          count st).2.2 := by
  simp only [beam.loop]
  rw [if_neg hg]

theorem expandStep_inv (gr : Grid) (st0 : PMap) (start target current : Pos)
    (closed1 : List Pos) (hstart : start ∈ closed1)
    (s : List Pos × Nat × PMap) (n : Pos)
    (hn : n ∈ gr.get_neighbors current false)
    (hcur : current ∈ closed1)
    (hinv : ExpInv gr st0 start closed1 s) :
    ExpInv gr st0 start closed1 (beam.expandStep target current closed1 s n) := by
  by_cases h1 : (s.2.2 n).blocked = true ∨ n ∈ closed1
  · unfold beam.expandStep
    rw [if_pos h1]
    exact hinv
  · push_neg at h1
    rcases h1 with ⟨hnb, hnc⟩
    have h1' : ¬ ((s.2.2 n).blocked = true ∨ n ∈ closed1) := by
      push_neg
      exact ⟨hnb, hnc⟩
    by_cases h2 : n ∈ s.1
    · unfold beam.expandStep
      rw [if_neg h1', if_pos h2]
      have hg1 : (s.2.2 current).g = 0 := hinv.gZero current
      have hg2 : (s.2.2 n).g = 0 := hinv.gZero n
      rw [hg1, hg2, if_neg (by omega : ¬ (0 + 1 < 0))]
      exact hinv
    · unfold beam.expandStep
      rw [if_neg h1', if_neg h2]
      have hne_start : n ≠ start := fun h => hnc (h ▸ hstart)
      have hother : ∀ m, m ≠ n →
          setParent (setH s.2.2 n (manhattan n target)) n current m = s.2.2 m := by
        intro m hm
        rw [setParent_other _ _ _ _ hm, setH_other _ _ _ _ hm]
      have hat_n : (setParent (setH s.2.2 n (manhattan n target)) n current n).parent =
          some current := by
        rw [setParent_self]
      refine ⟨?_, ?_, ?_, ?_, ?_, ?_, ?_⟩
      · intro p
        have e1 := (setParent_fields (setH s.2.2 n (manhattan n target)) n current p).2.2
        have e2 := (setH_fields s.2.2 n (manhattan n target) p).2.2
        show (setParent (setH s.2.2 n (manhattan n target)) n current p).blocked =
          (st0 p).blocked
        rw [e1, e2]
        exact hinv.blockedEq p
      · intro p
        have e1 := (setParent_fields (setH s.2.2 n (manhattan n target)) n current p).1
        have e2 := (setH_fields s.2.2 n (manhattan n target) p).1
        show (setParent (setH s.2.2 n (manhattan n target)) n current p).g = 0
        rw [e1, e2]
        exact hinv.gZero p
      · show (setParent (setH s.2.2 n (manhattan n target)) n current start).parent = none
        rw [hother start (fun h => hne_start h.symm)]
        exact hinv.startParent
      · show (s.1 ++ [n]).Nodup
        refine hinv.opnNodup.append (List.nodup_singleton n) ?_
        intro a ha hb
        have : a = n := by simpa using hb
        subst this
        exact h2 ha
      · intro c hc
        rcases List.mem_append.mp hc with hc | hc
        · exact hinv.disj c hc
        · have : c = n := by simpa using hc
          subst this
          exact hnc
      · intro c hc
        obtain ⟨l, hl1, hl2, hl3, hl4, hl5⟩ := hinv.rooted c hc
        refine ⟨l, hl1, hl2, ?_, hl4, hl5⟩
        refine parentsAlong_congr s.2.2 _ l start hl3 ?_
        intro y hy
        have hyc : y ∈ closed1 := hl5 y (List.mem_cons_of_mem start hy)
        exact hother y (fun h => hnc (h ▸ hyc))
      · intro c hc
        rcases List.mem_append.mp hc with hc | hc
        · rcases hinv.opnChain c hc with h | ⟨p, hp1, hp2, hp3⟩
          · exact Or.inl h
          · refine Or.inr ⟨p, hp1, ?_, hp3⟩
            show (setParent (setH s.2.2 n (manhattan n target)) n current c).parent = some p
            rw [hother c (fun h => h2 (h ▸ hc))]
            exact hp2
        · have : c = n := by simpa using hc
          subst this
          refine Or.inr ⟨current, hcur, hat_n, hn, ?_⟩
          rw [← hinv.blockedEq c]
          simpa using hnb

theorem expand_fold_inv (gr : Grid) (st0 : PMap) (start target current : Pos)
    (closed1 : List Pos) (hstart : start ∈ closed1) (hcur : current ∈ closed1) :
    ∀ (ns : List Pos) (s : List Pos × Nat × PMap),
    (∀ n ∈ ns, n ∈ gr.get_neighbors current false) →
    ExpInv gr st0 start closed1 s →
    ExpInv gr st0 start closed1 (ns.foldl (beam.expandStep target current closed1) s) := by
  intro ns
  induction ns with
  | nil => intro s _ hs; exact hs
  | cons n rest ih =>
    intro s hns hs
    exact ih _ (fun m hm => hns m (List.mem_cons_of_mem n hm))
      (expandStep_inv gr st0 start target current closed1 hstart
        s n (hns n (List.mem_cons_self n rest)) hcur hs)

/-- Soundness of the beam loop: any success dictionary it returns names a goal
reached by a duplicate-free chain of legal moves from the start, and the path
is exactly that chain's token list. -/
theorem beamLoop_sound (gr : Grid) (goals : List Pos) (target : Pos) (bw : Nat)
    (cj : Bool) (tf : Nat) (st0 : PMap) (start : Pos) :
    ∀ (fuel : Nat) (opn closed : List Pos) (count : Nat) (st : PMap),
    BeamInv gr st0 start opn closed st →
    ∀ (path : List Tok) (gl : Pos) (cnt : Nat) (st' : PMap),
    beam.loop gr goals target bw cj tf fuel opn closed count st =
      some (SingleRes.found path gl cnt, st') →
    gl ∈ goals ∧ ∃ l, IsChain gr st0 start l ∧ gl = lastCell start l ∧ l.Nodup ∧
      path = tokensOf cj (start :: l) := by
  intro fuel
  induction fuel with
  | zero =>
    intro opn closed count st _ path gl cnt st' h
    rw [beamLoop_zero] at h
    exact absurd h (by simp)
  | succ fuel ih =>
    intro opn closed count st inv path gl cnt st' h
    cases opn with
    | nil =>
      rw [beamLoop_empty] at h
      simp at h
    | cons x xs =>
      have hcur_mem : beam.minByF st x xs ∈ x :: xs := minByF_mem st xs x
      have hcur_cl1 : beam.minByF st x xs ∈ closed ++ [beam.minByF st x xs] := by simp
      have hstart_cl1 : start ∈ closed ++ [beam.minByF st x xs] := by
        by_cases hc : closed = []
        · have hopn := inv.emptyCase hc
          have hx : x = start ∧ xs = [] := by
            constructor
            · exact (List.cons.injEq x xs start []).mp hopn |>.1
            · exact (List.cons.injEq x xs start []).mp hopn |>.2
          rcases hx with ⟨rfl, rfl⟩
          simp [beam.minByF]
        · exact List.mem_append_left _ (inv.startClosed hc)
      have hrooted1 : ∀ c ∈ closed ++ [beam.minByF st x xs],
          ∃ l, IsChain gr st0 start l ∧ c = lastCell start l ∧
            parentsAlong st (start :: l) ∧ (start :: l).Nodup ∧
            ∀ y ∈ start :: l, y ∈ closed ++ [beam.minByF st x xs] := by
        intro c hc
        rcases List.mem_append.mp hc with hcold | hcnew
        · obtain ⟨l, h1, h2, h3, h4, h5⟩ := inv.rooted c hcold
          exact ⟨l, h1, h2, h3, h4, fun y hy => List.mem_append_left _ (h5 y hy)⟩
        · have hceq : c = beam.minByF st x xs := by simpa using hcnew
          have hcmem : c ∈ x :: xs := by rw [hceq]; exact hcur_mem
          rcases inv.opnChain c hcmem with hcs | ⟨p, hpcl, hppar, hpstep⟩
          · refine ⟨[], trivial, hcs, trivial, List.nodup_singleton _, ?_⟩
            intro y hy
            have : y = start := by simpa using hy
            subst this
            exact hstart_cl1
          · obtain ⟨lp, hp1, hp2, hp3, hp4, hp5⟩ := inv.rooted p hpcl
            refine ⟨lp ++ [c], ?_, ?_, ?_, ?_, ?_⟩
            · exact (IsChain_snoc gr st0 lp start c).mpr ⟨hp1, by rw [← hp2]; exact hpstep⟩
            · rw [lastCell_concat]
            · rw [show start :: (lp ++ [c]) = (start :: lp) ++ [c] from rfl]
              refine (parentsAlong_snoc st lp start c).mpr ⟨hp3, ?_⟩
              rw [← hp2]
              exact hppar
            · rw [show start :: (lp ++ [c]) = (start :: lp) ++ [c] from rfl]
              refine hp4.append (List.nodup_singleton c) ?_
              intro a ha hb
              have : a = c := by simpa using hb
              subst this
              exact inv.disj a hcmem (hp5 a ha)
            · intro y hy
              rw [show start :: (lp ++ [c]) = (start :: lp) ++ [c] from rfl] at hy
              rcases List.mem_append.mp hy with hy | hy
              · exact List.mem_append_left _ (hp5 y hy)
              · have : y = c := by simpa using hy
                subst this
                exact hc
      by_cases hg : beam.minByF st x xs ∈ goals
      · rw [beamLoop_cons_goal gr goals target bw cj tf fuel x xs closed count st hg] at h
        cases htr : trace_path cj st tf true (beam.minByF st x xs) with
        | none => rw [htr] at h; simp at h
        | some p0 =>
          rw [htr] at h
          simp only [Option.map_some', Option.some.injEq, Prod.mk.injEq,
            SingleRes.found.injEq] at h
          rcases h with ⟨⟨hp0, hgl, hcnt⟩, hst⟩
          obtain ⟨l, hchain, hlast, hpar, hnodup, _⟩ :=
            hrooted1 (beam.minByF st x xs) hcur_cl1
          have hsp1 : spine st l.length (lastCell start l) = some (start :: l) :=
            spine_of_parentsAlong st start inv.startParent l l.length hpar le_rfl
          cases hsp2 : spine st tf (beam.minByF st x xs) with
          | none =>
            rw [trace_eq_spine_none cj st tf _ hsp2] at htr
            exact absurd htr (by simp)
          | some cells =>
            rw [trace_eq_spine_some cj st tf _ cells hsp2] at htr
            have hp0' : p0 = tokensOf cj cells := by simpa using htr.symm
            have hM1 : spine st (max tf l.length) (beam.minByF st x xs) = some cells :=
              spine_mono st tf _ _ cells (le_max_left _ _) hsp2
            have hM2 : spine st (max tf l.length) (beam.minByF st x xs) =
                some (start :: l) := by
              rw [hlast]
              exact spine_mono st l.length _ _ _ (le_max_right _ _) hsp1
            have hcells : cells = start :: l := by
              rw [hM1] at hM2
              simpa using hM2
            refine ⟨hgl ▸ hg, l, hchain, ?_, (List.nodup_cons.mp hnodup).2, ?_⟩
            · rw [← hgl]
              exact hlast
            · rw [← hp0, hp0', hcells]
      · rw [beamLoop_cons_expand gr goals target bw cj tf fuel x xs closed count st hg] at h
        set s := beam.expandState gr target (beam.minByF st x xs)
          (closed ++ [beam.minByF st x xs])
          ((x :: xs).erase (beam.minByF st x xs)) count st with hs
        have hinv0 : ExpInv gr st0 start (closed ++ [beam.minByF st x xs])
            ((x :: xs).erase (beam.minByF st x xs), count, st) := by
          refine ⟨inv.blockedEq, inv.gZero, inv.startParent, ?_, ?_, hrooted1, ?_⟩
          · exact inv.opnNodup.erase _
          · intro c hc
            have hmem := (inv.opnNodup.mem_erase_iff).mp hc
            intro hcc
            rcases List.mem_append.mp hcc with hcc | hcc
            · exact inv.disj c hmem.2 hcc
            · exact hmem.1 (by simpa using hcc)
          · intro c hc
            have hmem := (inv.opnNodup.mem_erase_iff).mp hc
            rcases inv.opnChain c hmem.2 with hcs | ⟨p, hp1, hp2, hp3⟩
            · exact Or.inl hcs
            · exact Or.inr ⟨p, List.mem_append_left _ hp1, hp2, hp3⟩
        have hinvS : ExpInv gr st0 start (closed ++ [beam.minByF st x xs]) s := by
          rw [hs]
          unfold beam.expandState
          exact expand_fold_inv gr st0 start target (beam.minByF st x xs)
            (closed ++ [beam.minByF st x xs]) hstart_cl1 hcur_cl1
            (gr.get_neighbors (beam.minByF st x xs) false)
            ((x :: xs).erase (beam.minByF st x xs), count, st)
            (fun n hn => hn) hinv0
        have hsortNodup : (beam.sortByF s.2.2 s.1).Nodup :=
          ((sortByF_perm s.2.2 s.1).nodup_iff).mpr hinvS.opnNodup
        have hsubset : ∀ c, c ∈ (beam.sortByF s.2.2 s.1).take bw → c ∈ s.1 := by
          intro c hc
          exact ((sortByF_perm s.2.2 s.1).mem_iff).mp (List.mem_of_mem_take hc)
        have hinv' : BeamInv gr st0 start ((beam.sortByF s.2.2 s.1).take bw)
            (closed ++ [beam.minByF st x xs]) s.2.2 := by
          refine ⟨hinvS.blockedEq, hinvS.gZero, hinvS.startParent, ?_, ?_, ?_, ?_,
            hinvS.rooted, ?_⟩
          · intro hc
            exact absurd hc (by simp)
          · intro _
            exact hstart_cl1
          · exact (List.take_sublist bw _).nodup hsortNodup
          · intro c hc
            exact hinvS.disj c (hsubset c hc)
          · intro c hc
            exact hinvS.opnChain c (hsubset c hc)
        exact ih _ _ _ _ hinv' path gl cnt st' h

/-! beam.py `search`: wrapper lemmas. -/

theorem expandStep_blocked (target current : Pos) (closed1 : List Pos)
    (s : List Pos × Nat × PMap) (n : Pos) :
    sameBlocked (beam.expandStep target current closed1 s n).2.2 s.2.2 := by
  unfold beam.expandStep
  by_cases h1 : (s.2.2 n).blocked = true ∨ n ∈ closed1
  · rw [if_pos h1]; intro p; rfl
  · rw [if_neg h1]
    by_cases h2 : n ∈ s.1
    · rw [if_pos h2]
      by_cases h3 : (s.2.2 current).g + 1 < (s.2.2 n).g
      · rw [if_pos h3]
        intro p
        show (setParent (setG s.2.2 n ((s.2.2 current).g + 1)) n current p).blocked = _
        rw [(setParent_fields _ _ _ p).2.2, (setG_fields _ _ _ p).2.2]
      · rw [if_neg h3]; intro p; rfl
    · rw [if_neg h2]
      intro p
      show (setParent (setH s.2.2 n (manhattan n target)) n current p).blocked = _
      rw [(setParent_fields _ _ _ p).2.2, (setH_fields _ _ _ p).2.2]

theorem expand_fold_blocked (target current : Pos) (closed1 : List Pos) :
    ∀ (ns : List Pos) (s : List Pos × Nat × PMap),
    sameBlocked ((ns.foldl (beam.expandStep target current closed1) s).2.2) s.2.2 := by
  intro ns
  induction ns with
  | nil => intro s p; rfl
  | cons n rest ih =>
    intro s p
    rw [List.foldl_cons, ih (beam.expandStep target current closed1 s n) p,
      expandStep_blocked target current closed1 s n p]

theorem beamLoop_blocked (gr : Grid) (goals : List Pos) (target : Pos) (bw : Nat)
    (cj : Bool) (tf : Nat) :
    ∀ (fuel : Nat) (opn closed : List Pos) (count : Nat) (st : PMap) (r : SingleRes)
    (st' : PMap),
    beam.loop gr goals target bw cj tf fuel opn closed count st = some (r, st') →
    sameBlocked st' st := by
  intro fuel
  induction fuel with
  | zero =>
    intro opn closed count st r st' h
    rw [beamLoop_zero] at h
    exact absurd h (by simp)
  | succ fuel ih =>
    intro opn closed count st r st' h
    cases opn with
    | nil =>
      rw [beamLoop_empty] at h
      simp only [Option.some.injEq, Prod.mk.injEq] at h
      rw [← h.2]
      intro p
      rfl
    | cons x xs =>
      by_cases hg : beam.minByF st x xs ∈ goals
      · rw [beamLoop_cons_goal gr goals target bw cj tf fuel x xs closed count st hg] at h
        cases htr : trace_path cj st tf true (beam.minByF st x xs) with
        | none => rw [htr] at h; simp at h
        | some p0 =>
          rw [htr] at h
          simp only [Option.map_some', Option.some.injEq, Prod.mk.injEq] at h
          rw [← h.2]
          intro p
          rfl
      · rw [beamLoop_cons_expand gr goals target bw cj tf fuel x xs closed count st hg] at h
        have h1 := ih _ _ _ _ _ _ h
        intro p
        rw [h1 p]
        exact expand_fold_blocked target (beam.minByF st x xs) _ _ _ p

theorem beam_search_blocked (tf : Nat) (a : Agent) (bw : Nat) (st0 : PMap)
    (r : SingleRes) (st' : PMap)
    (h : beam.search tf a bw st0 = Except.ok (some (r, st'))) :
    sameBlocked st' st0 := by
  cases htarget : a.get_nearest_goal with
  | none =>
    unfold beam.search at h
    rw [htarget] at h
    exact absurd h (by simp)
  | some target =>
    unfold beam.search at h
    rw [htarget] at h
    have h' : beam.loop a.grid a.goals target bw a.can_jump tf tf [a.cell] [] 1 st0 =
        some (r, st') := by
      simpa using h
    exact beamLoop_blocked a.grid a.goals target bw a.can_jump tf tf _ _ _ _ r st' h'

/-- Any success dictionary `beam.search` returns from a freshly annotated state
names a goal reached by a duplicate-free chain of legal moves, with the path
being that chain's token list. -/
theorem beam_search_success (tf : Nat) (a : Agent) (bw : Nat) (st0 : PMap)
    (hF : Fresh st0) (path : List Tok) (gl : Pos) (cnt : Nat) (st' : PMap)
    (h : beam.search tf a bw st0 = Except.ok (some (SingleRes.found path gl cnt, st'))) :
    gl ∈ a.goals ∧ ∃ l, IsChain a.grid st0 a.cell l ∧ gl = lastCell a.cell l ∧
      l.Nodup ∧ path = tokensOf a.can_jump (a.cell :: l) := by
  cases htarget : a.get_nearest_goal with
  | none =>
    unfold beam.search at h
    rw [htarget] at h
    exact absurd h (by simp)
  | some target =>
    unfold beam.search at h
    rw [htarget] at h
    have h' : beam.loop a.grid a.goals target bw a.can_jump tf tf [a.cell] [] 1 st0 =
        some (SingleRes.found path gl cnt, st') := by
      simpa using h
    have inv0 : BeamInv a.grid st0 a.cell [a.cell] [] st0 := by
      refine ⟨fun p => rfl, fun p => (hF p).1, (hF a.cell).2.2, fun _ => rfl,
        fun hc => absurd rfl hc, List.nodup_singleton _, ?_, ?_, ?_⟩
      · intro c _
        exact List.not_mem_nil c
      · intro c hc
        exact absurd hc (List.not_mem_nil c)
      · intro c hc
        exact Or.inl (by simpa using hc)
    exact beamLoop_sound a.grid a.goals target bw a.can_jump tf st0 a.cell tf
      _ _ _ _ inv0 path gl cnt st' h'

/-- beam.py `search` with the start already a goal: the first pop returns the
empty path with count 1 and the state untouched. -/
theorem beam_search_start_goal (tf : Nat) (a : Agent) (bw : Nat) (st0 : PMap)
    (hF : Fresh st0) (hg : a.cell ∈ a.goals) :
    beam.search (tf + 1) a bw st0 =
      Except.ok (some (SingleRes.found [] a.cell 1, st0)) := by
  cases htarget : a.get_nearest_goal with
  | none =>
    unfold Agent.get_nearest_goal at htarget
    cases hgl : a.goals with
    | nil => rw [hgl] at hg; exact absurd hg (List.not_mem_nil _)
    | cons g0 gs => rw [hgl] at htarget; simp at htarget
  | some target =>
    unfold beam.search
    rw [htarget]
    show Except.ok (beam.loop a.grid a.goals target bw a.can_jump (tf + 1) (tf + 1)
      [a.cell] [] 1 st0) = Except.ok (some (SingleRes.found [] a.cell 1, st0))
    have hmin : beam.minByF st0 a.cell [] = a.cell := rfl
    have hg' : beam.minByF st0 a.cell [] ∈ a.goals := by rw [hmin]; exact hg
    rw [beamLoop_cons_goal a.grid a.goals target bw a.can_jump (tf + 1) tf
      a.cell [] [] 1 st0 hg']
    rw [hmin, trace_path_root a.can_jump st0 (tf + 1) true a.cell (hF a.cell).2.2]
    rfl

/-- When no goal is inside the reachability closure of the start, `beam.search`
can only fail (return the bare count) or run out of model fuel. -/
theorem beam_search_unreachable (tf : Nat) (a : Agent) (bw : Nat) (st0 : PMap)
    (hF : Fresh st0)
    (hunr : ∀ gl ∈ a.goals, gl ∉ reachSet a.grid st0 a.cell) :
    ∀ (r : SingleRes) (st' : PMap),
    beam.search tf a bw st0 = Except.ok (some (r, st')) →
    ∃ c, r = SingleRes.fail c := by
  intro r st' h
  cases r with
  | fail c => exact ⟨c, rfl⟩
  | found path gl cnt =>
    rcases beam_search_success tf a bw st0 hF path gl cnt st' h with
      ⟨hgl, l, hchain, hlast, hnd, _⟩
    have : gl ∈ reachSet a.grid st0 a.cell := by
      rw [hlast]
      exact reach_of_chain a.grid st0 a.cell l hchain hnd
    exact absurd this (hunr gl hgl)

theorem applyWalk_tokensOf (gr : Grid) (st0 : PMap) (cj : Bool) :
    ∀ (l : List Pos) (a : Pos), IsChain gr st0 a l →
    applyWalk gr st0 a (tokensOf cj (a :: l)) = some (lastCell a l) := by
  intro l
  induction l with
  | nil => intro a _; simp [tokensOf, applyWalk, lastCell]
  | cons b t ih =>
    intro a hchain
    rcases hchain with ⟨hstep, hrest⟩
    have happ : applyTok gr st0 a (mkTok cj a b) = some b := applyTok_step gr st0 cj a b hstep
    have : lastCell a (b :: t) = lastCell b t := by
      rw [lastCell, lastCell, List.getLastD_cons]
    rw [this]
    have := ih b hrest
    simp only [tokensOf, applyWalk, happ]
    exact this

/-! ## The claims -/

/-- Claim C1: for every grid and every one of the seven algorithms, a returned
single-goal success dictionary carries a path whose direction tokens, applied
sequentially from the agent's start cell, pass only through valid unblocked
cells and land exactly on the returned goal cell.  Every path element is a
direction token by the typing of `Tok`.  `Fresh st` is the annotation state
every newly constructed grid has (`Cell.__init__` zeroes `g`, `h`, `parent`);
BFS, DFS, A*, Greedy and Bidirectional never return a success (they raise
`AttributeError`), so the claim holds for them vacuously. -/
theorem c1_path_validity (alg : Alg) (tf limit bw : Nat) (a : Agent) (st : PMap)
    (path : List Tok) (gl : Pos) (cnt : Nat) (hF : Fresh st)
    (h : resultOf (runSingle alg tf a limit bw st) =
      Except.ok (some (SingleRes.found path gl cnt))) :
    applyWalk a.grid st a.cell path = some gl := by
  cases alg with
  | bfs => exact Except.noConfusion h
  | dfs => exact Except.noConfusion h
  | astar => exact Except.noConfusion h
  | greedy => exact Except.noConfusion h
  | bidirectional => exact Except.noConfusion h
  | iddfs =>
    have h2 : Option.map Prod.fst (iddfs.search tf a limit st) =
        some (SingleRes.found path gl cnt) := Except.ok.inj h
    rcases Option.map_eq_some'.mp h2 with ⟨⟨r, st'⟩, hr, hfst⟩
    have hfst' : r = SingleRes.found path gl cnt := hfst
    rw [hfst'] at hr
    rcases iddfs_search_success tf a limit st path gl cnt st' hr with
      ⟨l, hchain, hlast, _, _, hpath⟩
    rw [hpath, hlast]
    exact applyWalk_tokensOf a.grid st a.can_jump l a.cell hchain
  | beam =>
    cases hbs : beam.search tf a bw st with
    | error e =>
      have h2 : resultOf (beam.search tf a bw st) =
          Except.ok (some (SingleRes.found path gl cnt)) := h
      rw [hbs] at h2
      exact Except.noConfusion h2
    | ok o =>
      have h2 : resultOf (beam.search tf a bw st) =
          Except.ok (some (SingleRes.found path gl cnt)) := h
      rw [hbs] at h2
      have h3 : Option.map Prod.fst o = some (SingleRes.found path gl cnt) :=
        Except.ok.inj h2
      rcases Option.map_eq_some'.mp h3 with ⟨⟨r, st'⟩, hr, hfst⟩
      have hfst' : r = SingleRes.found path gl cnt := hfst
      rw [hfst'] at hr
      rw [hr] at hbs
      rcases beam_search_success tf a bw st hF path gl cnt st' hbs with
        ⟨_, l, hchain, hlast, _, hpath⟩
      rw [hpath, hlast]
      exact applyWalk_tokensOf a.grid st a.can_jump l a.cell hchain

/-- Witness for C1: on the open 1x2 grid, IDDFS returns the one-token path
`[right]`, and applying it from the start lands on the goal (1,0). -/
theorem c1_path_validity_witness :
    Fresh st12 ∧
    resultOf (runSingle Alg.iddfs 10 ag12 100000 2 st12) =
      Except.ok (some (SingleRes.found [⟨Direction.right, none⟩]
        ((1 : Int), (0 : Int)) 2)) ∧
    applyWalk ag12.grid st12 ag12.cell [⟨Direction.right, none⟩] =
      some ((1 : Int), (0 : Int)) := by
  have hF : Fresh st12 := fun p => ⟨rfl, rfl, rfl⟩
  have hr : resultOf (runSingle Alg.iddfs 10 ag12 100000 2 st12) =
      Except.ok (some (SingleRes.found [⟨Direction.right, none⟩]
        ((1 : Int), (0 : Int)) 2)) := by decide
  exact ⟨hF, hr, c1_path_validity Alg.iddfs 10 100000 2 ag12 st12 _ _ _ hF hr⟩

/-- Claim C2: the claim's concrete scenario — a 5x5 open grid, start (0,0),
goal (4,4), BFS returns exactly 8 direction tokens with visited count at most
25 — does not happen in the code: `bfs.search` raises `AttributeError` at its
first statement (`agent.map.reset()`, bfs.py line 31) and returns no result at
all.  The rest of the theorem runs the remainder of bfs.py's body
(`search_on_grid`, lines 32-71) on the agent's grid, which is what the file's
docstring and `__main__` driver intend: that body does return the 8-token
shortest path `[down, down, down, down, right, right, right, right]` with
visited count 25 ≤ 25.  The general shortest-path-length part of the claim is
likewise unwitnessable for BFS, since `bfs.search` never returns a path. -/
theorem c2_bfs_shortest_5x5 :
    resultOf (runSingle Alg.bfs 200 ag55 100000 2 st55) =
      Except.error PyExc.attributeError ∧
    Option.map Prod.fst (bfs.search_on_grid gr55 200 ag55 st55) =
      some (SingleRes.found path8 ((4 : Int), (4 : Int)) 25) ∧
    path8.length = 8 ∧ 25 ≤ 25 :=
  ⟨rfl, by decide, by decide, le_rfl⟩

/-- Claim C3: on every constructible agent and state, the single-goal and
all-goals entry points of BFS, DFS, A*, Greedy and Bidirectional raise
`AttributeError` (their first statement dereferences the nonexistent
`agent.map`), before any search step runs; the IDDFS entry point always
executes (it returns an ordinary value), and the only exception Beam can raise
is the `ValueError` of `min([])` on an empty goal list — never an
`AttributeError`. -/
theorem c3_map_attribute_error (tf limit bw : Nat) (a : Agent) (st : PMap) :
    runSingle Alg.bfs tf a limit bw st = Except.error PyExc.attributeError ∧
    runSingle Alg.dfs tf a limit bw st = Except.error PyExc.attributeError ∧
    runSingle Alg.astar tf a limit bw st = Except.error PyExc.attributeError ∧
    runSingle Alg.greedy tf a limit bw st = Except.error PyExc.attributeError ∧
    runSingle Alg.bidirectional tf a limit bw st = Except.error PyExc.attributeError ∧
    bfs.search_all tf a st = Except.error PyExc.attributeError ∧
    dfs.search_all tf a st = Except.error PyExc.attributeError ∧
    astar.search_all tf a st = Except.error PyExc.attributeError ∧
    greedy.search_all tf a st = Except.error PyExc.attributeError ∧
    bidirectional.search_all tf a st = Except.error PyExc.attributeError ∧
    runSingle Alg.iddfs tf a limit bw st = Except.ok (iddfs.search tf a limit st) ∧
    (∀ e, runSingle Alg.beam tf a limit bw st = Except.error e →
      e = PyExc.valueError) := by
  refine ⟨rfl, rfl, rfl, rfl, rfl, rfl, rfl, rfl, rfl, rfl, rfl, ?_⟩
  intro e he
  have he' : beam.search tf a bw st = Except.error e := he
  unfold beam.search at he'
  cases hg : a.get_nearest_goal with
  | none =>
    rw [hg] at he'
    exact (Except.error.inj he').symm
  | some target =>
    rw [hg] at he'
    exact Except.noConfusion he'

/-- Witness for C3: on the agent whose goal list is empty, Beam's exception is
`ValueError`, and BFS raises `AttributeError`. -/
theorem c3_map_attribute_error_witness :
    runSingle Alg.beam 5 ag12e 3 2 st12 = Except.error PyExc.valueError ∧
    PyExc.valueError = PyExc.valueError ∧
    runSingle Alg.bfs 5 ag12e 3 2 st12 = Except.error PyExc.attributeError := by
  have hb : runSingle Alg.beam 5 ag12e 3 2 st12 = Except.error PyExc.valueError := rfl
  exact ⟨hb, (c3_map_attribute_error 5 3 2 ag12e st12).2.2.2.2.2.2.2.2.2.2.2
    PyExc.valueError hb, (c3_map_attribute_error 5 3 2 ag12e st12).1⟩

/-- Claim C4, amended: when every goal is unreachable from the start, BFS,
DFS, A*, Greedy and Bidirectional do not return a bare visited count — they
raise `AttributeError`; IDDFS and Beam do return a bare-count failure value,
but the IDDFS count is the total over all `net_area + 1` depth-limited
iterations, not the number of reachable free cells (see the counterexample). -/
theorem c4_enclosed_goal (tf limit bw : Nat) (a : Agent) (st : PMap)
    (hF : Fresh st)
    (hunr : ∀ gl ∈ a.goals, gl ∉ reachSet a.grid st a.cell) :
    (runSingle Alg.bfs tf a limit bw st = Except.error PyExc.attributeError ∧
     runSingle Alg.dfs tf a limit bw st = Except.error PyExc.attributeError ∧
     runSingle Alg.astar tf a limit bw st = Except.error PyExc.attributeError ∧
     runSingle Alg.greedy tf a limit bw st = Except.error PyExc.attributeError ∧
     runSingle Alg.bidirectional tf a limit bw st = Except.error PyExc.attributeError) ∧
    (∃ c st', runSingle Alg.iddfs tf a limit bw st =
      Except.ok (some (SingleRes.fail c, st'))) ∧
    (∀ (r : SingleRes) (st' : PMap),
      runSingle Alg.beam tf a limit bw st = Except.ok (some (r, st')) →
      ∃ c, r = SingleRes.fail c) := by
  refine ⟨⟨rfl, rfl, rfl, rfl, rfl⟩, ?_, ?_⟩
  · rcases iddfs_search_unreachable tf a limit st hunr with ⟨c, st', h⟩
    exact ⟨c, st', congrArg Except.ok h⟩
  · intro r st' h
    exact beam_search_unreachable tf a bw st hF hunr r st' h

/-- Witness for C4: on the 3x3 grid whose goal (2,2) is enclosed by walls,
IDDFS returns a bare-count failure. -/
theorem c4_enclosed_goal_witness :
    Fresh st33 ∧ (∀ gl ∈ ag33.goals, gl ∉ reachSet gr33 st33 ag33.cell) ∧
    (∃ c st', runSingle Alg.iddfs 100 ag33 100000 2 st33 =
      Except.ok (some (SingleRes.fail c, st'))) := by
  have hF : Fresh st33 := fun p => ⟨rfl, rfl, rfl⟩
  have hunr : ∀ gl ∈ ag33.goals, gl ∉ reachSet gr33 st33 ag33.cell := by decide
  exact ⟨hF, hunr, (c4_enclosed_goal 100 100000 2 ag33 st33 hF hunr).2.1⟩

/-- Counterexample for C4 as claimed: on the 3x3 grid whose goal (2,2) is
enclosed by the walls (2,1,1,1) and (1,2,1,1), the start can reach 6 free
cells, but IDDFS's failure count is 57 — the count accumulates over all 8
depth-limited iterations, so it does not equal the number of reachable free
cells; and BFS returns no integer at all, it raises `AttributeError`. -/
theorem c4_enclosed_goal_counterexample :
    resultOf (runSingle Alg.iddfs 100 ag33 100000 2 st33) =
      Except.ok (some (SingleRes.fail 57)) ∧
    (reachSet gr33 st33 ag33.cell).length = 6 ∧
    resultOf (runSingle Alg.bfs 100 ag33 100000 2 st33) =
      Except.error PyExc.attributeError ∧
    (57 : Nat) ≠ 6 :=
  ⟨by decide, by decide, rfl, by decide⟩

/-- Claim C5, amended: only IDDFS begins by calling `Grid.reset()`
(iddfs.py lines 101 and 142 call `agent.grid.reset()`), so only IDDFS is
insensitive to stale `g`/`h`/`parent` annotations left by prior runs: its
single-goal and all-goals results depend on the state only through the
`blocked` flags.  BFS, DFS, A*, Greedy and Bidirectional raise
`AttributeError` (their `agent.map.reset()` call fails), hence are trivially
state-independent; Beam never resets and its result does depend on stale
annotations (see the counterexample). -/
theorem c5_reset_first (tf limit bw : Nat) (a : Agent) (st st' : PMap)
    (hb : sameBlocked st st') :
    iddfs.search tf a limit st = iddfs.search tf a limit st' ∧
    iddfs.search_all tf a limit st = iddfs.search_all tf a limit st' ∧
    runSingle Alg.bfs tf a limit bw st = runSingle Alg.bfs tf a limit bw st' ∧
    runSingle Alg.dfs tf a limit bw st = runSingle Alg.dfs tf a limit bw st' ∧
    runSingle Alg.astar tf a limit bw st = runSingle Alg.astar tf a limit bw st' ∧
    runSingle Alg.greedy tf a limit bw st = runSingle Alg.greedy tf a limit bw st' ∧
    runSingle Alg.bidirectional tf a limit bw st =
      runSingle Alg.bidirectional tf a limit bw st' :=
  ⟨iddfs_search_congr tf a limit st st' hb,
   iddfs_search_all_congr tf a limit st st' hb, rfl, rfl, rfl, rfl, rfl⟩

/-- Witness for C5: the 1x2 state with a stale parent annotation has the same
blocked flags as the fresh one, and IDDFS returns the same result on both. -/
theorem c5_reset_first_witness :
    sameBlocked st12 st12b ∧
    iddfs.search 10 ag12 100000 st12 = iddfs.search 10 ag12 100000 st12b := by
  have hb : sameBlocked st12 st12b :=
    fun p => ((setParent_fields st12 ((0 : Int), (0 : Int))
      ((1 : Int), (0 : Int)) p).2.2).symm
  exact ⟨hb, (c5_reset_first 10 100000 2 ag12 st12 st12b hb).1⟩

/-- Counterexample for C5 as claimed: beam.py `search` never calls
`Grid.reset()`.  On the 2x2 grid whose start (0,0) is itself the goal, a stale
annotation `parent (0,0) = (1,0)` left by a prior run changes Beam's answer:
from the stale state it returns the nonsense path `[left]`, from the reset
state the empty path — though both states agree on every blocked flag.  So
Beam does not clear annotations before searching. -/
theorem c5_reset_first_counterexample :
    resultOf (beam.search 100 agS 2 st22stale) =
      Except.ok (some (SingleRes.found [⟨Direction.left, none⟩]
        ((0 : Int), (0 : Int)) 1)) ∧
    resultOf (beam.search 100 agS 2 (resetState st22stale)) =
      Except.ok (some (SingleRes.found [] ((0 : Int), (0 : Int)) 1)) ∧
    sameBlocked st22stale (resetState st22stale) ∧
    ([⟨Direction.left, none⟩] : List Tok) ≠ ([] : List Tok) :=
  ⟨by decide, by decide, fun p => rfl, by decide⟩

/-- Claim C6, amended: re-running is idempotent only for the single-goal modes
that actually execute.  A successful `iddfs.search` leaves a state with the
same blocked flags, so running it again from that state returns the identical
result; likewise `beam.search` when each run starts from a reset state.  The
five `agent.map` algorithms raise the same `AttributeError` every time.  The
all-goals modes are NOT idempotent: they remove every reached goal from the
agent's goal list, so the second run starts with no goals and fails (see the
counterexample). -/
theorem c6_rerun_idempotent (tf limit bw : Nat) (a : Agent) (st0 : PMap) :
    (∀ (r : SingleRes) (st' : PMap),
      iddfs.search tf a limit st0 = some (r, st') →
      iddfs.search tf a limit st' = some (r, st')) ∧
    (∀ (r : SingleRes) (st' : PMap),
      beam.search tf a bw (resetState st0) = Except.ok (some (r, st')) →
      beam.search tf a bw (resetState st') = Except.ok (some (r, st'))) ∧
    (∀ alg, alg = Alg.bfs ∨ alg = Alg.dfs ∨ alg = Alg.astar ∨ alg = Alg.greedy ∨
      alg = Alg.bidirectional →
      ∀ st1 : PMap, runSingle alg tf a limit bw st0 = runSingle alg tf a limit bw st1) := by
  refine ⟨?_, ?_, ?_⟩
  · intro r st' h
    have hb : sameBlocked st0 st' := iddfs_search_blocked tf a limit st0 r st' h
    have hc : iddfs.search tf a limit st' = iddfs.search tf a limit st0 :=
      iddfs_search_congr tf a limit st' st0 (fun p => (hb p).symm)
    rw [hc]
    exact h
  · intro r st' h
    have hb : sameBlocked st' (resetState st0) :=
      beam_search_blocked tf a bw (resetState st0) r st' h
    have h2 : resetState st' = resetState (resetState st0) := resetState_congr hb
    have h3 : resetState (resetState st0) = resetState st0 := funext fun p => rfl
    rw [h2, h3]
    exact h
  · rintro alg (rfl | rfl | rfl | rfl | rfl) st1 <;> rfl

/-- Witness for C6: the idempotence of `iddfs.search` applied at the concrete
1x2 run. -/
theorem c6_rerun_idempotent_witness :
    ∃ r st', iddfs.search 10 ag12 100000 st12 = some (r, st') ∧
      iddfs.search 10 ag12 100000 st' = some (r, st') := by
  cases hrun : iddfs.search 10 ag12 100000 st12 with
  | none =>
    have hs : (iddfs.search 10 ag12 100000 st12).isSome = true := by decide
    rw [hrun] at hs
    exact absurd hs (by decide)
  | some v =>
    refine ⟨v.1, v.2, rfl, ?_⟩
    exact (c6_rerun_idempotent 10 100000 2 ag12 st12).1 v.1 v.2 (by rw [hrun])

/-- Counterexample for C6 as claimed: `iddfs.search_all` on the 1x2 grid finds
the goal (1,0) and removes it from the agent's goal list; re-running the same
entry point on the same (mutated) agent — with any state, and after any
`Grid.reset()` — starts with an empty goal list, so its `while agent.goals`
loop never runs and it returns the bare count 1, not the first run's success
dictionary. -/
theorem c6_rerun_idempotent_counterexample :
    allResultOf (iddfs.search_all 10 ag12 100000 st12) =
      some (AllRes.found [⟨Direction.right, none⟩] [((1 : Int), (0 : Int))] 2) ∧
    goalsAfter (iddfs.search_all 10 ag12 100000 st12) = some [] ∧
    allResultOf (iddfs.search_all 10 ag12e 100000 st12) = some (AllRes.fail 1) ∧
    AllRes.found [⟨Direction.right, none⟩] [((1 : Int), (0 : Int))] 2 ≠
      AllRes.fail 1 :=
  ⟨by decide, by decide, by decide, by decide⟩

/-- Claim C7, amended: IDDFS runs depth-limited searches of depth 0, 1, …,
`net_area`, one global count accumulating across the iterations, and whenever
a returned result exists its count never exceeds the ceiling (provided the
ceiling is at least 1, the count's initial value).  But reaching the ceiling
mid-recursion does not force failure: the goal test precedes the ceiling test
in `dls`, so the search can still end in success with count equal to the
ceiling (see the counterexample). -/
theorem c7_count_ceiling (tf limit bw : Nat) (a : Agent) (st : PMap)
    (r : SingleRes) (st' : PMap) (hlim : 1 ≤ limit)
    (h : runSingle Alg.iddfs tf a limit bw st = Except.ok (some (r, st'))) :
    r.count ≤ limit :=
  iddfs_search_count tf a limit st hlim r st' (Except.ok.inj h)

/-- Witness for C7: the count bound applied at the concrete 1x2 run with
ceiling 2. -/
theorem c7_count_ceiling_witness :
    (1 : Nat) ≤ 2 ∧
    ∃ r st', runSingle Alg.iddfs 10 ag12 2 2 st12 = Except.ok (some (r, st')) ∧
      r.count ≤ 2 := by
  refine ⟨by decide, ?_⟩
  cases hrun : iddfs.search 10 ag12 2 st12 with
  | none =>
    have hs : (iddfs.search 10 ag12 2 st12).isSome = true := by decide
    rw [hrun] at hs
    exact absurd hs (by decide)
  | some v =>
    refine ⟨v.1, v.2, ?_, ?_⟩
    · show Except.ok (iddfs.search 10 ag12 2 st12) = _
      rw [hrun]
    · exact c7_count_ceiling 10 2 2 ag12 st12 v.1 v.2 (by decide)
        (by show Except.ok (iddfs.search 10 ag12 2 st12) = _; rw [hrun])

/-- Counterexample for C7 as claimed: on the 1x2 grid with ceiling 2, the
global count reaches the ceiling while descending to the neighbor (1,0), yet
the search returns a SUCCESS dictionary with count 2 — not failure — because
`dls` tests the goal before testing the ceiling.  So reaching the ceiling
during recursion does not make the search end in failure. -/
theorem c7_count_ceiling_counterexample :
    resultOf (runSingle Alg.iddfs 10 ag12 2 2 st12) =
      Except.ok (some (SingleRes.found [⟨Direction.right, none⟩]
        ((1 : Int), (0 : Int)) 2)) ∧
    (SingleRes.found [⟨Direction.right, none⟩] ((1 : Int), (0 : Int)) 2).count = 2 :=
  ⟨by decide, rfl⟩

/-- Claim C8, amended: when the agent's start cell is itself a goal, the two
algorithms that run — IDDFS and Beam — return a success with empty path, the
start as goal cell, and visited count exactly 1, without expanding any
neighbor; the other five raise `AttributeError` before their own
start-in-goals short-circuit (bfs.py lines 33-39) can execute. -/
theorem c8_start_is_goal (tf limit bw : Nat) (a : Agent) (st : PMap)
    (hF : Fresh st) (hg : a.cell ∈ a.goals) :
    resultOf (runSingle Alg.iddfs tf a limit bw st) =
      Except.ok (some (SingleRes.found [] a.cell 1)) ∧
    resultOf (runSingle Alg.beam (tf + 1) a limit bw st) =
      Except.ok (some (SingleRes.found [] a.cell 1)) ∧
    runSingle Alg.bfs tf a limit bw st = Except.error PyExc.attributeError ∧
    runSingle Alg.dfs tf a limit bw st = Except.error PyExc.attributeError ∧
    runSingle Alg.astar tf a limit bw st = Except.error PyExc.attributeError ∧
    runSingle Alg.greedy tf a limit bw st = Except.error PyExc.attributeError ∧
    runSingle Alg.bidirectional tf a limit bw st = Except.error PyExc.attributeError := by
  refine ⟨?_, ?_, rfl, rfl, rfl, rfl, rfl⟩
  · show resultOf (Except.ok (iddfs.search tf a limit st)) = _
    rw [iddfs_search_start_goal tf a limit st hg]
    rfl
  · show resultOf (beam.search (tf + 1) a bw st) = _
    rw [beam_search_start_goal tf a bw st hF hg]
    rfl

/-- Witness for C8: the start-is-goal short-circuit at the concrete 2x2 agent
whose start (0,0) is the goal. -/
theorem c8_start_is_goal_witness :
    Fresh st22 ∧ agS.cell ∈ agS.goals ∧
    resultOf (runSingle Alg.iddfs 10 agS 100000 2 st22) =
      Except.ok (some (SingleRes.found [] agS.cell 1)) ∧
    resultOf (runSingle Alg.beam 11 agS 100000 2 st22) =
      Except.ok (some (SingleRes.found [] agS.cell 1)) := by
  have hF : Fresh st22 := fun p => ⟨rfl, rfl, rfl⟩
  have hg : agS.cell ∈ agS.goals := by decide
  exact ⟨hF, hg, (c8_start_is_goal 10 100000 2 agS st22 hF hg).1,
    (c8_start_is_goal 10 100000 2 agS st22 hF hg).2.1⟩

/-- Counterexample for C8 as claimed: the 2x2 agent's start (0,0) is itself
its goal, yet BFS does not return the empty-path success dictionary with
count 1 — it raises `AttributeError` before its short-circuit can run. -/
theorem c8_start_is_goal_counterexample :
    agS.cell ∈ agS.goals ∧
    runSingle Alg.bfs 10 agS 100000 2 st22 = Except.error PyExc.attributeError :=
  ⟨by decide, rfl⟩

/-- Claim C9: `Grid.reset()` (environment.py lines 255-261, via `Cell.reset`,
lines 115-120) sets `g = 0`, `h = 0` and `parent = None` on every cell and
leaves every cell's `blocked` flag unchanged.  Cells are addressed by their
coordinates in this embedding, so coordinates are unchanged by construction. -/
theorem c9_reset_frame (st : PMap) (p : Pos) :
    (resetState st p).g = 0 ∧ (resetState st p).h = 0 ∧
    (resetState st p).parent = none ∧
    (resetState st p).blocked = (st p).blocked :=
  ⟨rfl, rfl, rfl, rfl⟩

/-- Claim C10: `Grid.get_neighbors` groups its result in the fixed direction
order up, left, down, right (the order of `directionList`); with jumping
disabled it keeps, per direction, exactly the distance-1 cell when in bounds
and omits the direction otherwise; with jumping enabled it keeps, per
direction, the cells at distances 1, 2, 3, … up to the last one before the
first out-of-bounds distance.  Both characterizations are independent of the
cell-state map, so blocked cells are included, never filtered — callers
filter. -/
theorem c10_get_neighbors_order (gr : Grid) (p : Pos) :
    gr.get_neighbors p false = directionList.filterMap
      (fun d => if gr.validP (stepPos p d 1) then some (stepPos p d 1) else none) ∧
    gr.get_neighbors p true = directionList.flatMap (fun d =>
      ((List.range' 1 (gr.width + gr.height + 1)).takeWhile
        (fun (j : Nat) => decide (gr.validP (stepPos p d (j : Int))))).map
        (fun (j : Nat) => stepPos p d (j : Int))) :=
  ⟨get_neighbors_false_eq gr p, get_neighbors_true_eq gr p⟩

end RobotNav
